import Mathlib

/-!
Verification development for the lightstacks dependency-graph and
reference-resolution engine (src/graph.rs, src/runtime.rs, src/parser.rs,
src/terraform.rs), shallowly embedded in Lean.

Embedding conventions:
* serde_yaml::Value is modelled by `Val` (string-keyed mappings, which is
  the only key shape the code ever looks up; numbers as Int, which is the
  only arithmetic-free use the code makes of them).
* Rust HashMap / HashSet values are modelled as association lists / lists
  whose order stands for the (arbitrary) iteration order of the hash
  container; theorems that depend on that order quantify over it or, for
  counterexamples, exhibit a concrete order.
* Unbounded Rust recursion (the DFS in execution_layers, the layering
  loop, the "value" unwrap loop, the bracket scanner) is embedded with an
  explicit fuel argument so that the definitions stay structural and
  kernel-computable; each use instantiates fuel with a bound that is
  proved (or, for the concrete paths used here, checked) sufficient, and
  fuel exhaustion is a distinguished error proved unreachable where a
  theorem needs it.
* Rust panics (the .expect calls in parse_path, the .unwrap in
  run_module) are modelled as distinguished error values.
-/

namespace LightStacks

/-! ## Values (serde_yaml::Value) -/

inductive Val where
  | null
  | bool (b : Bool)
  | num (n : Int)
  | str (s : String)
  | seq (items : List Val)
  | map (entries : List (String × Val))

/-- Association-list lookup: models `serde_yaml::Mapping::get` /
`HashMap::get` with string keys (first matching key wins; the Rust maps
have unique keys). -/
def assocGet {α : Type} : List (String × α) → String → Option α
  | [], _ => none
  | (k, v) :: rest, key => if k = key then some v else assocGet rest key

/-- Insert models `HashMap::insert`: replace the binding if the key is
present, append otherwise. -/
def assocInsert {α : Type} : List (String × α) → String → α → List (String × α)
  | [], k, v => [(k, v)]
  | (k', v') :: rest, k, v =>
    if k' = k then (k, v) :: rest else (k', v') :: assocInsert rest k v

/-! Executable structural size of a value, used as the fuel bound for the
recursive "value" unwrap loop below. -/
mutual
def valSize : Val → Nat
  | Val.null => 1
  | Val.bool _ => 1
  | Val.num _ => 1
  | Val.str _ => 1
  | Val.seq items => 1 + valSizeList items
  | Val.map entries => 1 + valSizeEntries entries
def valSizeList : List Val → Nat
  | [] => 0
  | v :: rest => valSize v + valSizeList rest
def valSizeEntries : List (String × Val) → Nat
  | [] => 0
  | (_, v) :: rest => 1 + valSize v + valSizeEntries rest
end

theorem assocGet_valSize {l : List (String × Val)} {key : String} {v : Val}
    (h : assocGet l key = some v) : valSize v < valSizeEntries l := by
  induction l with
  | nil => simp [assocGet] at h
  | cons hd tl ih =>
    obtain ⟨k, w⟩ := hd
    rw [assocGet] at h
    by_cases hk : k = key
    · simp [hk] at h
      subst h
      rw [valSizeEntries]
      omega
    · simp [hk] at h
      have := ih h
      rw [valSizeEntries]
      omega

/-! ## The recursive "value"-wrapper unwrap loop of get_value_from_path
(src/runtime.rs lines 196-204).  The Rust loop replaces the current value
by the entry at key "value" as long as the current value is a mapping
containing that key.  Each replacement moves to a structurally smaller
value, so `valSize` bounds the number of iterations; `unwrapFuel` makes
that bound explicit and `unwrapValue` instantiates it. -/

def unwrapFuel : Nat → Val → Val
  | 0, v => v
  | fuel + 1, v =>
    match v with
    | Val.map entries =>
      match assocGet entries "value" with
      | some w => unwrapFuel fuel w
      | none => Val.map entries
    | v => v

def unwrapValue (v : Val) : Val := unwrapFuel (valSize v) v

theorem valSize_pos (v : Val) : 0 < valSize v := by
  cases v <;> rw [valSize] <;> omega

theorem unwrapFuel_adequate :
    ∀ fuel v, valSize v ≤ fuel → unwrapFuel fuel v = unwrapValue v := by
  intro fuel
  induction fuel using Nat.strong_induction_on with
  | _ fuel ih =>
    intro v hle
    have hpos := valSize_pos v
    obtain ⟨f, rfl⟩ : ∃ f, fuel = f + 1 := ⟨fuel - 1, by omega⟩
    obtain ⟨s, hs⟩ : ∃ s, valSize v = s + 1 := ⟨valSize v - 1, by omega⟩
    unfold unwrapValue
    rw [hs]
    cases v with
    | map entries =>
      cases hget : assocGet entries "value" with
      | none => simp [unwrapFuel, hget]
      | some w =>
        have hw : valSize w < valSize (Val.map entries) := by
          have := assocGet_valSize hget
          rw [valSize]
          omega
        rw [hs] at hw
        have h1 : unwrapFuel f w = unwrapValue w :=
          ih f (by omega) w (by omega)
        have h2 : unwrapFuel s w = unwrapValue w :=
          ih s (by omega) w (by omega)
        simp [unwrapFuel, hget, h1, h2]
    | null => simp [unwrapFuel]
    | bool b => simp [unwrapFuel]
    | num n => simp [unwrapFuel]
    | str s' => simp [unwrapFuel]
    | seq items => simp [unwrapFuel]

theorem unwrapValue_map_some {entries : List (String × Val)} {w : Val}
    (h : assocGet entries "value" = some w) :
    unwrapValue (Val.map entries) = unwrapValue w := by
  have hw : valSize w < valSize (Val.map entries) := by
    have := assocGet_valSize h
    rw [valSize]
    omega
  have hpos := valSize_pos (Val.map entries)
  obtain ⟨s, hs⟩ : ∃ s, valSize (Val.map entries) = s + 1 :=
    ⟨valSize (Val.map entries) - 1, by omega⟩
  unfold unwrapValue
  rw [hs]
  have : unwrapFuel (s + 1) (Val.map entries) = unwrapFuel s w := by
    simp [unwrapFuel, h]
  rw [this]
  exact unwrapFuel_adequate s w (by omega)

theorem unwrapValue_map_none {entries : List (String × Val)}
    (h : assocGet entries "value" = none) :
    unwrapValue (Val.map entries) = Val.map entries := by
  have hpos := valSize_pos (Val.map entries)
  obtain ⟨s, hs⟩ : ∃ s, valSize (Val.map entries) = s + 1 :=
    ⟨valSize (Val.map entries) - 1, by omega⟩
  unfold unwrapValue
  rw [hs]
  simp [unwrapFuel, h]

/-! ## Path segments and parse_path (src/runtime.rs lines 156-176) -/

inductive PathSegment where
  | key (k : String)
  | index (i : Nat)
deriving DecidableEq

/-- Split a character list at the first occurrence of `c`: models
`str::find` followed by slicing.  `none` means the character is absent. -/
def splitAtChar (c : Char) : List Char → Option (List Char × List Char)
  | [] => none
  | x :: xs =>
    if x = c then some ([], xs)
    else
      match splitAtChar c xs with
      | some (pre, post) => some (x :: pre, post)
      | none => none

/-- Models `str::parse::<usize>` for the digit strings this code feeds it
(the Rust parser also accepts a leading plus sign, which cannot occur
between brackets in any path this repository handles).  `none` models the
parse failure that the Rust code turns into a panic. -/
def parseNatDigits (cs : List Char) : Option Nat :=
  if cs.isEmpty then none
  else if cs.all (fun ch => ch.isDigit) then
    some (cs.foldl (fun acc ch => acc * 10 + (ch.toNat - '0'.toNat)) 0)
  else none

/-- Split a character list at every occurrence of `c`: models
`str::split(c)` (which always yields at least one piece, so the empty
string yields one empty piece). -/
def splitOnChar (c : Char) : List Char → List (List Char)
  | [] => [[]]
  | x :: xs =>
    if x = c then [] :: splitOnChar c xs
    else
      match splitOnChar c xs with
      | [] => [[x]]
      | h :: t => (x :: h) :: t

/-- The bracket-scanning loop of parse_path applied to one dot-separated
token.  Fuel bounds the number of loop iterations; each iteration consumes
at least the bracket pair, so `length + 1` fuel is always enough.
`none` models the two panics (unmatched bracket, invalid index). -/
def parsePartGo : Nat → List Char → Option (List PathSegment)
  | 0, _ => none
  | fuel + 1, rem =>
    match splitAtChar '[' rem with
    | none => some (if rem.isEmpty then [] else [PathSegment.key (String.mk rem)])
    | some (pre, tail) =>
      match splitAtChar ']' tail with
      | none => none
      | some (idxChars, rest) =>
        match parseNatDigits idxChars with
        | none => none
        | some n =>
          match parsePartGo fuel rest with
          | none => none
          | some segs =>
            some ((if pre.isEmpty then [] else [PathSegment.key (String.mk pre)])
              ++ PathSegment.index n :: segs)

def parsePart (rem : List Char) : Option (List PathSegment) :=
  parsePartGo (rem.length + 1) rem

def parseParts : List (List Char) → Option (List PathSegment)
  | [] => some []
  | p :: ps =>
    match parsePart p with
    | none => none
    | some a =>
      match parseParts ps with
      | none => none
      | some b => some (a ++ b)

/-- `fn parse_path(path: &str) -> Vec<PathSegment>`: split on the dots,
then scan each token for trailing bracketed indices.  The Rust function
panics on malformed brackets; here that is the `none` result. -/
def parse_path (path : String) : Option (List PathSegment) :=
  parseParts (splitOnChar '.' path.toList)

/-! ## get_value_from_path (src/runtime.rs lines 178-207) -/

/-- One segment application: a Key segment requires a mapping, an Index
segment requires a sequence. -/
def applySeg (cur : Val) (seg : PathSegment) : Option Val :=
  match seg with
  | PathSegment.key k =>
    match cur with
    | Val.map m => assocGet m k
    | _ => none
  | PathSegment.index i =>
    match cur with
    | Val.seq l => l.get? i
    | _ => none

/-- `fn get_value_from_path`: walk the segments, running the recursive
"value" unwrap loop after every applied segment. -/
def get_value_from_path : Val → List PathSegment → Option Val
  | cur, [] => some cur
  | cur, seg :: rest =>
    match applySeg cur seg with
    | none => none
    | some v => get_value_from_path (unwrapValue v) rest

/-! ## Data model (src/parser.rs, src/graph.rs) -/

/-- src/parser.rs `Dependency`: symbolic name plus resolved id. -/
structure Dependency where
  id : String
  name : String
deriving DecidableEq

/-- src/parser.rs `InputValue`. -/
inductive InputValue where
  | Ref (path : String)
  | RefWithDefault (path : String) (default : Val)
  | Default (v : Val)

/-- src/parser.rs `ModuleNode`.  `scope_ids` is a HashSet in the source;
the list here records one iteration order of that set (the set has no
canonical order, so theorems that depend on the order quantify over it or
exhibit one). -/
structure ModuleNode where
  source : String
  id : String
  dependencies : List Dependency
  vars : List (String × Val)        -- the Rust field is named variables
  mocked_outputs : Option (List (String × Val))
  inputs : List (String × InputValue)
  scope_ids : List String

/-- src/graph.rs `Scope` (name = the scope type, e.g. "account"). -/
structure Scope where
  name : String
  vars : List (String × Val)        -- the Rust field is named variables

/-- src/graph.rs `ModuleGraph`.  `mod_dependency_graph` is the petgraph
DiGraph: `graphNodes` are the node weights (module ids) and the edge list
holds (dependency id, dependent id) pairs.  `modules` and `scopes` are the
two lookup maps. -/
structure ModuleGraph where
  mod_dependency_graph : List (String × String)
  graphNodes : List String
  modules : List (String × ModuleNode)
  scopes : List (String × Scope)

/-- Error values: the anyhow error messages of graph.rs / runtime.rs,
plus `outOfFuel` (an embedding artifact proved unreachable where needed)
and `panicked` (Rust panics: the parse_path .expect calls and the
.unwrap in run_module). -/
inductive LErr where
  | dependencyNotFound (depName moduleId : String)
  | targetNotFound (id : String)
  | cycleDetected
  | layeringError
  | outOfFuel
  | outputsMissing (id : String)
  | cannotResolve (path : String)
  | referenceNotFound (path : String)
  | panicked (what : String)
deriving DecidableEq

/-! ## resolve_dependency_id (src/graph.rs lines 199-220) -/

/-- The inner loop of resolve_dependency_id: scan all modules (in the
iteration order of the modules HashMap) for one whose source equals the
dependency name and whose scope_ids contains the given scope id. -/
def findModuleInScope (dep_name sid : String) (modules : List ModuleNode) :
    Option ModuleNode :=
  modules.find? (fun m => decide (m.source = dep_name ∧ sid ∈ m.scope_ids))

/-- The outer loop: try each scope id in turn, returning the first hit. -/
def scanScopeIds (dep_name : String) (modules : List ModuleNode) :
    List String → Option String
  | [] => none
  | sid :: rest =>
    match findModuleInScope dep_name sid modules with
    | some m => some m.id
    | none => scanScopeIds dep_name modules rest

/-- `fn resolve_dependency_id`: reverse the (HashSet-iteration-order)
scope_ids list and scan.  The source comment claims this searches "from
most specific to least", which only holds if the hash set happens to
iterate outermost-first. -/
def resolve_dependency_id (module : ModuleNode) (dep_name : String)
    (modules : List ModuleNode) : Except LErr String :=
  match scanScopeIds dep_name modules module.scope_ids.reverse with
  | some id => Except.ok id
  | none => Except.error (LErr.dependencyNotFound dep_name module.id)

/-! ## Graph construction (src/graph.rs ModuleGraph::new, lines 41-57):
for every module and every declared dependency, resolve the dependency
name and record the edge (resolved id, module id). -/

def edgesForModule (m : ModuleNode) (modules : List ModuleNode) :
    List Dependency → Except LErr (List (String × String))
  | [] => Except.ok []
  | dep :: rest =>
    match resolve_dependency_id m dep.name modules with
    | Except.error e => Except.error e
    | Except.ok depId =>
      match edgesForModule m modules rest with
      | Except.error e => Except.error e
      | Except.ok es => Except.ok ((depId, m.id) :: es)

/-- All edges recorded by ModuleGraph::new, module by module (in the
iteration order of the modules HashMap). -/
def buildEdges (all : List ModuleNode) : List ModuleNode → Except LErr (List (String × String))
  | [] => Except.ok []
  | m :: rest =>
    match edgesForModule m all m.dependencies with
    | Except.error e => Except.error e
    | Except.ok es =>
      match buildEdges all rest with
      | Except.error e => Except.error e
      | Except.ok es' => Except.ok (es ++ es')

/-! ## Reference resolution (src/runtime.rs lines 91-154) -/

/-- `path.splitn(2, '.')`: head before the first dot, rest after it
(empty when there is no dot). -/
def splitFirstDot (path : String) : String × String :=
  match splitAtChar '.' path.toList with
  | none => (path, "")
  | some (pre, post) => (String.mk pre, String.mk post)

/-- The scope search of find_scope_variable: walk the module's scope_ids
(in set-iteration order) and return the first scope whose type name
matches. -/
def findScopeByType (module : ModuleNode) (scope_type : String)
    (graph : ModuleGraph) : Option Scope :=
  module.scope_ids.findSome? (fun sid =>
    match assocGet graph.scopes sid with
    | some scope => if scope.name = scope_type then some scope else none
    | none => none)

/-- `fn find_scope_variable`: Option result; a `panicked` error models the
parse_path panic escaping the function. -/
def find_scope_variable (module : ModuleNode) (scope_type rest : String)
    (graph : ModuleGraph) : Except LErr (Option Val) :=
  match findScopeByType module scope_type graph with
  | some scope =>
    match parse_path rest with
    | none => Except.error (LErr.panicked "parse_path")
    | some segments =>
      Except.ok (get_value_from_path (Val.map scope.vars) segments)
  | none => Except.ok none

/-- `fn resolve_ref`: dependency outputs first, then ancestor-scope
variables, `Ok(none)` when neither head matches.  Note the asymmetry that
claim C3 is about: a failed walk under a matching dependency is a hard
error, while a failed walk under a matching scope collapses to
`Ok(none)`. -/
def resolve_ref (path : String) (module : ModuleNode)
    (outputs_map : List (String × List (String × Val)))
    (graph : ModuleGraph) : Except LErr (Option Val) :=
  let first := (splitFirstDot path).1
  let rest := (splitFirstDot path).2
  match module.dependencies.find? (fun dep => decide (dep.name = first)) with
  | some dep =>
    match assocGet outputs_map dep.id with
    | none => Except.error (LErr.outputsMissing dep.id)
    | some dep_outputs =>
      match parse_path rest with
      | none => Except.error (LErr.panicked "parse_path")
      | some segments =>
        match get_value_from_path (Val.map dep_outputs) segments with
        | none => Except.error (LErr.cannotResolve path)
        | some v => Except.ok (some v)
  | none =>
    match find_scope_variable module first rest graph with
    | Except.error e => Except.error e
    | Except.ok (some v) => Except.ok (some v)
    | Except.ok none => Except.ok none

/-! ## inject_inputs (src/runtime.rs lines 71-88) -/

def injectGo (outputs_map : List (String × List (String × Val)))
    (graph : ModuleGraph) :
    ModuleNode → List (String × InputValue) → Except LErr ModuleNode
  | m, [] => Except.ok m
  | m, (key, val) :: rest =>
    match
      (match val with
       | InputValue.Default v => Except.ok v
       | InputValue.Ref path =>
         match resolve_ref path m outputs_map graph with
         | Except.error e => Except.error e
         | Except.ok (some v) => Except.ok v
         | Except.ok none => Except.error (LErr.referenceNotFound path)
       | InputValue.RefWithDefault path default =>
         match resolve_ref path m outputs_map graph with
         | Except.error e => Except.error e
         | Except.ok (some v) => Except.ok v
         | Except.ok none => Except.ok default) with
    | Except.error e => Except.error e
    | Except.ok resolved =>
      injectGo outputs_map graph
        { m with vars := assocInsert m.vars key resolved } rest

/-- `fn inject_inputs`: resolve every declared input of the module (in the
iteration order of the inputs HashMap) and write the results into the
module's variables. -/
def inject_inputs (module : ModuleNode)
    (outputs_map : List (String × List (String × Val)))
    (graph : ModuleGraph) : Except LErr ModuleNode :=
  injectGo outputs_map graph module module.inputs

/-! ## execution_layers (src/graph.rs lines 77-184) -/

/-- `neighbors_directed(idx, Direction::Incoming)`: the sources of all
edges pointing at `x` (the modules `x` depends on). -/
def incomingDeps (edges : List (String × String)) (x : String) : List String :=
  (edges.filter (fun e => decide (e.2 = x))).map (fun e => e.1)

/-- One step of the backward-reachability closure: add every edge source
whose edge target is already in the set. -/
def stepRel (edges : List (String × String)) (S : Finset String) : Finset String :=
  S ∪ (edges.filterMap (fun e => if e.2 ∈ S then some e.1 else none)).toFinset

/-- The relevant set of graph.rs lines 86-98: the target plus everything
it transitively depends on (the worklist loop of the source computes
exactly backward reachability; here the closure is reached by iterating
the one-step operator once per graph node, which is proved to be a
fixpoint below). -/
def relevantSet (g : ModuleGraph) (target : String) : Finset String :=
  (stepRel g.mod_dependency_graph)^[g.graphNodes.length] {target}

/-- The mutable state of the depth-first topological sort (graph.rs lines
100-129): temporary marks, permanent marks, and the output order. -/
structure VState where
  temp : Finset String
  perm : Finset String
  sorted : List String
deriving DecidableEq

/-- The `for dep in graph.neighbors_directed(idx, Incoming)` loop inside
`fn visit`: recurse into every dependency that lies in the relevant set,
threading the state and propagating errors. -/
def visitList (visitFn : String → VState → Except LErr VState)
    (relevant : Finset String) : List String → VState → Except LErr VState
  | [], st => Except.ok st
  | d :: ds, st =>
    if d ∈ relevant then
      match visitFn d st with
      | Except.error e => Except.error e
      | Except.ok st' => visitList visitFn relevant ds st'
    else visitList visitFn relevant ds st

/-- The body of `fn visit` for one node, parameterized by the function
used for recursive calls. -/
def visitStep (edges : List (String × String)) (relevant : Finset String)
    (visitFn : String → VState → Except LErr VState)
    (idx : String) (st : VState) : Except LErr VState :=
  if idx ∈ st.perm then Except.ok st
  else if idx ∈ st.temp then Except.error LErr.cycleDetected
  else
    match visitList visitFn relevant (incomingDeps edges idx)
        ⟨insert idx st.temp, st.perm, st.sorted⟩ with
    | Except.error e => Except.error e
    | Except.ok st2 =>
      Except.ok ⟨st2.temp.erase idx, insert idx st2.perm, st2.sorted ++ [idx]⟩

/-- `fn visit`, with fuel bounding the recursion depth.  Every nested call
strictly enlarges the temporary-mark set with a member of the relevant
set, so depth is at most the size of the relevant set; the caller passes
`graphNodes.length + 1` and adequacy is proved below. -/
def visit (edges : List (String × String)) (relevant : Finset String) :
    Nat → String → VState → Except LErr VState
  | 0 => fun _ _ => Except.error LErr.outOfFuel
  | fuel + 1 => visitStep edges relevant (visit edges relevant fuel)

/-- `all_deps_assigned` of graph.rs lines 151-155: every incoming
neighbor that is in the relevant set is already assigned to a layer. -/
def allDepsAssigned (edges : List (String × String)) (relevant : Finset String)
    (assigned : Finset String) (x : String) : Bool :=
  ((incomingDeps edges x).filter (fun a => decide (a ∈ relevant))).all
    (fun a => decide (a ∈ assigned))

/-- The layer-partitioning loop of graph.rs lines 146-181.  Fuel bounds
the number of iterations; each successful iteration removes at least one
node from `remaining`, so `remaining.length` fuel is always enough. -/
def buildLayers (edges : List (String × String)) (relevant : Finset String) :
    Nat → List String → Finset String → Except LErr (List (List String))
  | 0, remaining, _ =>
    if remaining.isEmpty then Except.ok [] else Except.error LErr.outOfFuel
  | fuel + 1, remaining, assigned =>
    if remaining.isEmpty then Except.ok []
    else
      let layer := remaining.filter (allDepsAssigned edges relevant assigned)
      if layer.isEmpty then Except.error LErr.layeringError
      else
        match
          buildLayers edges relevant fuel
            (remaining.filter (fun x => ! allDepsAssigned edges relevant assigned x))
            (assigned ∪ layer.toFinset) with
        | Except.error e => Except.error e
        | Except.ok rest => Except.ok (layer :: rest)

/-- `fn execution_layers` (graph.rs lines 77-184): locate the target,
compute the relevant set, depth-first topologically sort it, then
partition everything except the target into layers. -/
def execution_layers (g : ModuleGraph) (target : String) :
    Except LErr (List (List String) × String) :=
  if target ∈ g.graphNodes then
    let relevant := relevantSet g target
    match visit g.mod_dependency_graph relevant (g.graphNodes.length + 1) target
        ⟨∅, ∅, []⟩ with
    | Except.error e => Except.error e
    | Except.ok st =>
      let remaining := st.sorted.filter (fun x => decide (x ≠ target))
      match buildLayers g.mod_dependency_graph relevant remaining.length
          remaining ∅ with
      | Except.error e => Except.error e
      | Except.ok layers => Except.ok (layers, target)
  else Except.error (LErr.targetNotFound target)

/-! ## The execution engine (src/runtime.rs run_module, lines 31-67),
instantiated with the MockRunner capability of src/terraform.rs (init
always succeeds, output returns the module's mocked_outputs or the empty
map, apply always succeeds).  The trace of capability invocations is
returned so that theorems can talk about which operations were invoked
on which modules; the concurrent layer tasks are linearized in layer
order, which preserves everything the claims are about (each task reads
the same outputs-map snapshot taken at the start of the layer, and the
collected outputs are merged only after the whole layer). -/

inductive TerraformAction where
  | Plan
  | Apply
  | Destroy
deriving DecidableEq

inductive Event where
  | init (id : String)
  | output (id : String)
  | apply (id : String)
deriving DecidableEq

/-- One layer: look up each module (the source calls .unwrap here, hence
`panicked`), inject its inputs against the layer-start snapshot, then
invoke init and output; collect (id, outputs) pairs and the event
trace. -/
def runLayer (g : ModuleGraph)
    (snapshot : List (String × List (String × Val))) :
    List String → Except LErr (List (String × List (String × Val)) × List Event)
  | [] => Except.ok ([], [])
  | id :: rest =>
    match assocGet g.modules id with
    | none => Except.error (LErr.panicked "get_module_by_id unwrap")
    | some module =>
      match inject_inputs module snapshot g with
      | Except.error e => Except.error e
      | Except.ok module' =>
        let outs := module'.mocked_outputs.getD []
        match runLayer g snapshot rest with
        | Except.error e => Except.error e
        | Except.ok (outsRest, evRest) =>
          Except.ok ((id, outs) :: outsRest,
            Event.init id :: Event.output id :: evRest)

/-- The layer loop: run each layer against the current outputs map, then
merge the collected outputs before the next layer starts. -/
def runLayers (g : ModuleGraph) :
    List (List String) → List (String × List (String × Val)) →
    Except LErr (List (String × List (String × Val)) × List Event)
  | [], outputs_map => Except.ok (outputs_map, [])
  | layer :: rest, outputs_map =>
    match runLayer g outputs_map layer with
    | Except.error e => Except.error e
    | Except.ok (collected, ev1) =>
      let outputs_map' :=
        collected.foldl (fun acc p => assocInsert acc p.1 p.2) outputs_map
      match runLayers g rest outputs_map' with
      | Except.error e => Except.error e
      | Except.ok (finalMap, ev2) => Except.ok (finalMap, ev1 ++ ev2)

/-- `Runtime::run_module(module_id, action)`: obtain the plan, run every
layer, then inject the target's inputs, init it, read its outputs, and
invoke apply on it.  The `action` parameter is accepted but never
consulted anywhere in the body, exactly as in the source. -/
def run_module (g : ModuleGraph) (module_id : String)
    (action : TerraformAction) : Except LErr (List Event) :=
  match execution_layers g module_id with
  | Except.error e => Except.error e
  | Except.ok (layers, target) =>
    match runLayers g layers [] with
    | Except.error e => Except.error e
    | Except.ok (outputs_map, evs) =>
      match assocGet g.modules module_id with
      | none => Except.error (LErr.targetNotFound target)
      | some target_module =>
        match inject_inputs target_module outputs_map g with
        | Except.error e => Except.error e
        | Except.ok _ =>
          Except.ok (evs ++
            [Event.init module_id, Event.output module_id,
             Event.apply module_id])

/-! ## Graph-level notions used by the theorems -/

/-- The edge relation of the dependency graph: `edgeRel g a b` when the
graph records "b depends on a". -/
def edgeRel (g : ModuleGraph) (a b : String) : Prop :=
  (a, b) ∈ g.mod_dependency_graph

/-- Well-formedness guaranteed by ModuleGraph::new: every recorded edge
connects two existing graph nodes (the source only adds an edge when both
endpoint ids are in the node-index map). -/
def WFGraph (g : ModuleGraph) : Prop :=
  ∀ e ∈ g.mod_dependency_graph, e.1 ∈ g.graphNodes ∧ e.2 ∈ g.graphNodes

instance (g : ModuleGraph) : Decidable (WFGraph g) := by
  unfold WFGraph
  infer_instance

instance (g : ModuleGraph) (a b : String) : Decidable (edgeRel g a b) := by
  unfold edgeRel
  infer_instance

/-- A dependency cycle touching the set `S`: some member of `S` reaches
itself through one or more dependency edges. -/
def hasCycleIn (g : ModuleGraph) (S : Finset String) : Prop :=
  ∃ x ∈ S, Relation.TransGen (edgeRel g) x x

theorem mem_incomingDeps {edges : List (String × String)} {a x : String} :
    a ∈ incomingDeps edges x ↔ (a, x) ∈ edges := by
  simp only [incomingDeps, List.mem_map, List.mem_filter, decide_eq_true_eq]
  constructor
  · rintro ⟨⟨p, q⟩, ⟨hpq, h2⟩, h1⟩
    simp only at h1 h2
    subst h1
    subst h2
    exact hpq
  · intro h
    exact ⟨(a, x), ⟨h, rfl⟩, rfl⟩

theorem subset_stepRel (edges : List (String × String)) (S : Finset String) :
    S ⊆ stepRel edges S :=
  Finset.subset_union_left

theorem mem_stepRel_of_edge {edges : List (String × String)}
    {S : Finset String} {a b : String}
    (hab : (a, b) ∈ edges) (hb : b ∈ S) : a ∈ stepRel edges S := by
  simp only [stepRel, Finset.mem_union, List.mem_toFinset, List.mem_filterMap]
  right
  exact ⟨(a, b), hab, by simp [hb]⟩

theorem subset_iterate (edges : List (String × String)) (S0 : Finset String) :
    ∀ k, S0 ⊆ (stepRel edges)^[k] S0 := by
  intro k
  induction k with
  | zero => simp
  | succ k ih =>
    rw [Function.iterate_succ_apply']
    exact ih.trans (subset_stepRel _ _)

theorem iterate_subset_iterate_succ (edges : List (String × String))
    (S0 : Finset String) (k : Nat) :
    (stepRel edges)^[k] S0 ⊆ (stepRel edges)^[k + 1] S0 := by
  rw [Function.iterate_succ_apply']
  exact subset_stepRel _ _

theorem target_mem_relevantSet (g : ModuleGraph) (target : String) :
    target ∈ relevantSet g target :=
  subset_iterate _ _ _ (Finset.mem_singleton_self target)

theorem iterate_subset_nodes (g : ModuleGraph) (target : String)
    (hwf : WFGraph g) (ht : target ∈ g.graphNodes) :
    ∀ k, (stepRel g.mod_dependency_graph)^[k] {target} ⊆ g.graphNodes.toFinset := by
  intro k
  induction k with
  | zero =>
    intro x hx
    simp only [Function.iterate_zero, id_eq, Finset.mem_singleton] at hx
    subst hx
    simpa using ht
  | succ k ih =>
    rw [Function.iterate_succ_apply']
    intro x hx
    simp only [stepRel, Finset.mem_union, List.mem_toFinset, List.mem_filterMap] at hx
    rcases hx with hx | ⟨e, he, hfe⟩
    · exact ih hx
    · have : e.1 = x := by
        by_cases h2 : e.2 ∈ (stepRel g.mod_dependency_graph)^[k] {target}
        · simpa [h2] using hfe
        · simp [h2] at hfe
      subst this
      simpa using (hwf e he).1

theorem relevantSet_subset_nodes (g : ModuleGraph) (target : String)
    (hwf : WFGraph g) (ht : target ∈ g.graphNodes) :
    relevantSet g target ⊆ g.graphNodes.toFinset :=
  iterate_subset_nodes g target hwf ht _

theorem iterate_stabilize {α : Type} (f : α → α) (S0 : α) (k : Nat)
    (h : f^[k + 1] S0 = f^[k] S0) :
    ∀ m, k ≤ m → f^[m] S0 = f^[k] S0 := by
  intro m hm
  induction m, hm using Nat.le_induction with
  | base => rfl
  | succ m hm ih =>
    rw [Function.iterate_succ_apply', ih]
    have hk := Function.iterate_succ_apply' f k S0
    rw [← hk]
    exact h

theorem iterate_card_grow (edges : List (String × String)) (S0 : Finset String) :
    ∀ k, (∀ j < k, (stepRel edges)^[j + 1] S0 ≠ (stepRel edges)^[j] S0) →
      S0.card + k ≤ ((stepRel edges)^[k] S0).card := by
  intro k
  induction k with
  | zero => simp
  | succ k ih =>
    intro h
    have hk := ih (fun j hj => h j (Nat.lt_succ_of_lt hj))
    have hne : (stepRel edges)^[k + 1] S0 ≠ (stepRel edges)^[k] S0 :=
      h k (Nat.lt_succ_self k)
    have hss : (stepRel edges)^[k] S0 ⊂ (stepRel edges)^[k + 1] S0 :=
      (iterate_subset_iterate_succ edges S0 k).ssubset_of_ne (Ne.symm hne)
    have := Finset.card_lt_card hss
    omega

theorem relevantSet_fixpoint (g : ModuleGraph) (target : String)
    (hwf : WFGraph g) (ht : target ∈ g.graphNodes) :
    stepRel g.mod_dependency_graph (relevantSet g target) = relevantSet g target := by
  set f := stepRel g.mod_dependency_graph with hf
  set n := g.graphNodes.length with hn
  by_contra hne
  have hne' : f^[n + 1] {target} ≠ f^[n] {target} := by
    rw [Function.iterate_succ_apply']
    exact hne
  have hall : ∀ j < n + 1, f^[j + 1] {target} ≠ f^[j] {target} := by
    intro j hj heq
    have h1 := iterate_stabilize f {target} j heq n (by omega)
    have h2 := iterate_stabilize f {target} j heq (n + 1) (by omega)
    exact hne' (h2.trans h1.symm)
  have hgrow := iterate_card_grow g.mod_dependency_graph {target} (n + 1) hall
  have hsub := iterate_subset_nodes g target hwf ht (n + 1)
  have hcard := Finset.card_le_card hsub
  have hlen : g.graphNodes.toFinset.card ≤ n := List.toFinset_card_le _
  simp only [Finset.card_singleton] at hgrow
  omega

theorem relevant_pred_closed (g : ModuleGraph) (target : String)
    (hwf : WFGraph g) (ht : target ∈ g.graphNodes) {a b : String}
    (hab : (a, b) ∈ g.mod_dependency_graph) (hb : b ∈ relevantSet g target) :
    a ∈ relevantSet g target := by
  rw [← relevantSet_fixpoint g target hwf ht]
  exact mem_stepRel_of_edge hab hb

theorem relevant_reaches (g : ModuleGraph) (target : String) :
    ∀ y ∈ relevantSet g target, Relation.ReflTransGen (edgeRel g) y target := by
  have : ∀ k, ∀ y ∈ (stepRel g.mod_dependency_graph)^[k] {target},
      Relation.ReflTransGen (edgeRel g) y target := by
    intro k
    induction k with
    | zero =>
      intro y hy
      simp only [Function.iterate_zero, id_eq, Finset.mem_singleton] at hy
      subst hy
      exact Relation.ReflTransGen.refl
    | succ k ih =>
      intro y hy
      rw [Function.iterate_succ_apply'] at hy
      simp only [stepRel, Finset.mem_union, List.mem_toFinset, List.mem_filterMap] at hy
      rcases hy with hy | ⟨e, he, hfe⟩
      · exact ih y hy
      · by_cases h2 : e.2 ∈ (stepRel g.mod_dependency_graph)^[k] {target}
        · have h1 : e.1 = y := by simpa [h2] using hfe
          subst h1
          exact Relation.ReflTransGen.head (by exact he) (ih e.2 h2)
        · simp [h2] at hfe
  exact this _

theorem reaches_relevant (g : ModuleGraph) (target : String)
    (hwf : WFGraph g) (ht : target ∈ g.graphNodes) :
    ∀ y, Relation.ReflTransGen (edgeRel g) y target → y ∈ relevantSet g target := by
  intro y hy
  induction hy using Relation.ReflTransGen.head_induction_on with
  | refl => exact target_mem_relevantSet g target
  | head hab _ ih => exact relevant_pred_closed g target hwf ht hab ih

/-- The edge relation restricted to a node set. -/
def relEdge (g : ModuleGraph) (R : Finset String) (a b : String) : Prop :=
  edgeRel g a b ∧ a ∈ R ∧ b ∈ R

theorem relEdge_first_mem {g : ModuleGraph} {R : Finset String} {a b : String}
    (h : Relation.TransGen (relEdge g R) a b) : a ∈ R := by
  induction h with
  | single h => exact h.2.1
  | tail _ _ ih => exact ih

theorem transGen_relEdge_of_relevant (g : ModuleGraph) (target : String)
    (hwf : WFGraph g) (ht : target ∈ g.graphNodes) {a b : String}
    (h : Relation.TransGen (edgeRel g) a b) (hb : b ∈ relevantSet g target) :
    Relation.TransGen (relEdge g (relevantSet g target)) a b := by
  induction h using Relation.TransGen.head_induction_on with
  | base hab =>
    exact Relation.TransGen.single
      ⟨hab, relevant_pred_closed g target hwf ht hab hb, hb⟩
  | ih hac _ ih =>
    have hc : _ ∈ relevantSet g target := relEdge_first_mem ih
    exact Relation.TransGen.head
      ⟨hac, relevant_pred_closed g target hwf ht hac hc, hc⟩ ih

/-! ## Invariants of the depth-first topological sort -/

/-- State invariant of `fn visit`: the sorted output is duplicate-free,
lists exactly the permanently marked nodes, all marks stay inside the
relevant set, temporary and permanent marks are disjoint, and every
permanently marked node has all its relevant dependencies permanently
marked at strictly smaller sorted positions. -/
def SInv (edges : List (String × String)) (relevant : Finset String)
    (st : VState) : Prop :=
  st.sorted.Nodup ∧
  (∀ x, x ∈ st.sorted ↔ x ∈ st.perm) ∧
  (∀ x ∈ st.perm, x ∈ relevant) ∧
  (∀ t ∈ st.temp, t ∈ relevant) ∧
  (∀ t ∈ st.temp, t ∉ st.perm) ∧
  (∀ x ∈ st.perm, ∀ a, (a, x) ∈ edges → a ∈ relevant →
    a ∈ st.perm ∧ st.sorted.indexOf a < st.sorted.indexOf x)

theorem SInv_init (edges : List (String × String)) (relevant : Finset String) :
    SInv edges relevant ⟨∅, ∅, []⟩ := by
  refine ⟨List.nodup_nil, ?_, ?_, ?_, ?_, ?_⟩ <;> simp

theorem visitList_temp_eq
    (visitFn : String → VState → Except LErr VState) (relevant : Finset String)
    (hFn : ∀ d st st', visitFn d st = Except.ok st' → st'.temp = st.temp) :
    ∀ ds st st', visitList visitFn relevant ds st = Except.ok st' →
      st'.temp = st.temp := by
  intro ds
  induction ds with
  | nil =>
    intro st st' h
    simp only [visitList] at h
    cases h
    rfl
  | cons d ds ih =>
    intro st st' h
    rw [visitList] at h
    by_cases hd : d ∈ relevant
    · rw [if_pos hd] at h
      cases hv : visitFn d st with
      | error e => rw [hv] at h; cases h
      | ok st1 =>
        rw [hv] at h
        have h1 := hFn d st st1 hv
        have h2 := ih st1 st' h
        rw [h2, h1]
    · rw [if_neg hd] at h
      exact ih st st' h

theorem visit_temp_eq (edges : List (String × String)) (relevant : Finset String) :
    ∀ fuel idx st st', visit edges relevant fuel idx st = Except.ok st' →
      st'.temp = st.temp := by
  intro fuel
  induction fuel with
  | zero => intro idx st st' h; cases h
  | succ fuel ih =>
    intro idx st st' h
    rw [visit, visitStep] at h
    by_cases hperm : idx ∈ st.perm
    · rw [if_pos hperm] at h
      cases h
      rfl
    · rw [if_neg hperm] at h
      by_cases htemp : idx ∈ st.temp
      · rw [if_pos htemp] at h; cases h
      · rw [if_neg htemp] at h
        cases hv : visitList (visit edges relevant fuel) relevant
            (incomingDeps edges idx) ⟨insert idx st.temp, st.perm, st.sorted⟩ with
        | error e => rw [hv] at h; cases h
        | ok st2 =>
          rw [hv] at h
          cases h
          have h2 := visitList_temp_eq (visit edges relevant fuel) relevant
            (ih) _ _ _ hv
          simp only at h2
          simp only [h2]
          exact Finset.erase_insert htemp

theorem visitList_ok_spec (edges : List (String × String))
    (relevant : Finset String)
    (visitFn : String → VState → Except LErr VState)
    (hFn : ∀ idx st st', SInv edges relevant st → idx ∈ relevant →
      visitFn idx st = Except.ok st' →
      SInv edges relevant st' ∧ st'.temp = st.temp ∧ st.perm ⊆ st'.perm ∧
      idx ∈ st'.perm ∧ ∃ t, st'.sorted = st.sorted ++ t) :
    ∀ ds st st', SInv edges relevant st →
      visitList visitFn relevant ds st = Except.ok st' →
      SInv edges relevant st' ∧ st'.temp = st.temp ∧ st.perm ⊆ st'.perm ∧
      (∀ d ∈ ds, d ∈ relevant → d ∈ st'.perm) ∧
      ∃ t, st'.sorted = st.sorted ++ t := by
  intro ds
  induction ds with
  | nil =>
    intro st st' hinv h
    simp only [visitList] at h
    cases h
    exact ⟨hinv, rfl, Finset.Subset.refl _, by simp, ⟨[], by simp⟩⟩
  | cons d ds ih =>
    intro st st' hinv h
    rw [visitList] at h
    by_cases hd : d ∈ relevant
    · rw [if_pos hd] at h
      cases hv : visitFn d st with
      | error e => rw [hv] at h; cases h
      | ok st1 =>
        rw [hv] at h
        obtain ⟨hinv1, htemp1, hperm1, hd1, t1, hsort1⟩ :=
          hFn d st st1 hinv hd hv
        obtain ⟨hinv2, htemp2, hperm2, hall2, t2, hsort2⟩ := ih st1 st' hinv1 h
        refine ⟨hinv2, htemp2.trans htemp1, hperm1.trans hperm2, ?_,
          ⟨t1 ++ t2, by rw [hsort2, hsort1, List.append_assoc]⟩⟩
        intro d' hd' _
        rcases List.mem_cons.1 hd' with rfl | hd'
        · exact hperm2 hd1
        · exact hall2 d' hd' (by assumption)
    · rw [if_neg hd] at h
      obtain ⟨hinv2, htemp2, hperm2, hall2, t2, hsort2⟩ := ih st st' hinv h
      refine ⟨hinv2, htemp2, hperm2, ?_, ⟨t2, hsort2⟩⟩
      intro d' hd' hrel
      rcases List.mem_cons.1 hd' with rfl | hd'
      · exact absurd hrel hd
      · exact hall2 d' hd' hrel

theorem visit_ok_spec (edges : List (String × String)) (relevant : Finset String) :
    ∀ fuel idx st st', SInv edges relevant st → idx ∈ relevant →
      visit edges relevant fuel idx st = Except.ok st' →
      SInv edges relevant st' ∧ st'.temp = st.temp ∧ st.perm ⊆ st'.perm ∧
      idx ∈ st'.perm ∧ ∃ t, st'.sorted = st.sorted ++ t := by
  intro fuel
  induction fuel with
  | zero => intro idx st st' _ _ h; cases h
  | succ fuel ih =>
    intro idx st st' hinv hrel h
    rw [visit, visitStep] at h
    by_cases hperm : idx ∈ st.perm
    · rw [if_pos hperm] at h
      cases h
      exact ⟨hinv, rfl, Finset.Subset.refl _, hperm, ⟨[], by simp⟩⟩
    · rw [if_neg hperm] at h
      by_cases htemp : idx ∈ st.temp
      · rw [if_pos htemp] at h; cases h
      · rw [if_neg htemp] at h
        set st1 : VState := ⟨insert idx st.temp, st.perm, st.sorted⟩ with hst1
        have hinv1 : SInv edges relevant st1 := by
          obtain ⟨h1, h2, h3, h4, h5, h6⟩ := hinv
          refine ⟨h1, h2, h3, ?_, ?_, h6⟩
          · intro t htm
            rcases Finset.mem_insert.1 htm with rfl | htm
            · exact hrel
            · exact h4 t htm
          · intro t htm
            rcases Finset.mem_insert.1 htm with rfl | htm
            · exact hperm
            · exact h5 t htm
        cases hv : visitList (visit edges relevant fuel) relevant
            (incomingDeps edges idx) st1 with
        | error e => rw [hv] at h; cases h
        | ok st2 =>
          rw [hv] at h
          cases h
          obtain ⟨hinv2, htemp2, hperm2, hall2, t2, hsort2⟩ :=
            visitList_ok_spec edges relevant (visit edges relevant fuel)
              ih _ st1 st2 hinv1 hv
          obtain ⟨n1, n2, n3, n4, n5, n6⟩ := hinv2
          have hidxtemp2 : idx ∈ st2.temp := by
            rw [htemp2]
            exact Finset.mem_insert_self idx st.temp
          have hidxperm2 : idx ∉ st2.perm := n5 idx hidxtemp2
          have hidxsort2 : idx ∉ st2.sorted := fun hmem => hidxperm2 ((n2 idx).1 hmem)
          constructor
          · -- SInv of the final state
            refine ⟨?_, ?_, ?_, ?_, ?_, ?_⟩
            · simpa [List.nodup_append] using ⟨n1, hidxsort2⟩
            · intro x
              simp only [List.mem_append, List.mem_singleton, Finset.mem_insert]
              rw [n2 x]
              tauto
            · intro x hx
              rcases Finset.mem_insert.1 hx with rfl | hx
              · exact hrel
              · exact n3 x hx
            · intro t htm
              exact n4 t (Finset.mem_of_mem_erase htm)
            · intro t htm hpm
              have h1 := Finset.mem_of_mem_erase htm
              have h2 := Finset.ne_of_mem_erase htm
              rcases Finset.mem_insert.1 hpm with rfl | hpm
              · exact h2 rfl
              · exact n5 t h1 hpm
            · intro x hx a ha harel
              rcases Finset.mem_insert.1 hx with rfl | hx
              · -- x = idx: its relevant deps were all visited by the loop
                have hamem : a ∈ incomingDeps edges x := mem_incomingDeps.2 ha
                have haperm : a ∈ st2.perm := hall2 a hamem harel
                have hasort : a ∈ st2.sorted := (n2 a).2 haperm
                refine ⟨Finset.mem_insert_of_mem haperm, ?_⟩
                rw [List.indexOf_append_of_mem hasort,
                  List.indexOf_append_of_not_mem hidxsort2]
                have := List.indexOf_lt_length.2 hasort
                simp only [List.indexOf_cons_self]
                omega
              · obtain ⟨haperm, hlt⟩ := n6 x hx a ha harel
                have hasort : a ∈ st2.sorted := (n2 a).2 haperm
                have hxsort : x ∈ st2.sorted := (n2 x).2 hx
                refine ⟨Finset.mem_insert_of_mem haperm, ?_⟩
                rw [List.indexOf_append_of_mem hasort,
                  List.indexOf_append_of_mem hxsort]
                exact hlt
          · refine ⟨?_, ?_, ?_, ?_⟩
            · -- temp restored
              simp only
              rw [htemp2]
              exact Finset.erase_insert htemp
            · -- perm monotone
              intro x hx
              exact Finset.mem_insert_of_mem (hperm2 hx)
            · exact Finset.mem_insert_self idx st2.perm
            · exact ⟨t2 ++ [idx], by simp only; rw [hsort2, List.append_assoc]⟩

theorem visit_error_cases (edges : List (String × String)) (relevant : Finset String) :
    ∀ fuel idx st e, visit edges relevant fuel idx st = Except.error e →
      e = LErr.cycleDetected ∨ e = LErr.outOfFuel := by
  intro fuel
  induction fuel with
  | zero =>
    intro idx st e h
    rw [visit] at h
    cases h
    right
    rfl
  | succ fuel ih =>
    intro idx st e h
    have hlist : ∀ ds st', visitList (visit edges relevant fuel) relevant ds st' =
        Except.error e → e = LErr.cycleDetected ∨ e = LErr.outOfFuel := by
      intro ds
      induction ds with
      | nil => intro st' h'; cases h'
      | cons d ds ihd =>
        intro st' h'
        rw [visitList] at h'
        by_cases hd : d ∈ relevant
        · rw [if_pos hd] at h'
          cases hv : visit edges relevant fuel d st' with
          | error e' =>
            rw [hv] at h'
            cases h'
            exact ih d st' e hv
          | ok st'' =>
            rw [hv] at h'
            exact ihd st'' h'
        · rw [if_neg hd] at h'
          exact ihd st' h'
    rw [visit, visitStep] at h
    by_cases hperm : idx ∈ st.perm
    · rw [if_pos hperm] at h; cases h
    · rw [if_neg hperm] at h
      by_cases htemp : idx ∈ st.temp
      · rw [if_pos htemp] at h
        cases h
        left
        rfl
      · rw [if_neg htemp] at h
        cases hv : visitList (visit edges relevant fuel) relevant
            (incomingDeps edges idx) ⟨insert idx st.temp, st.perm, st.sorted⟩ with
        | error e' =>
          rw [hv] at h
          cases h
          exact hlist _ _ hv
        | ok st2 => rw [hv] at h; cases h

theorem visit_no_fuel (edges : List (String × String)) (relevant : Finset String) :
    ∀ fuel idx st, idx ∈ relevant → st.temp ⊆ relevant →
      (relevant \ st.temp).card < fuel →
      visit edges relevant fuel idx st ≠ Except.error LErr.outOfFuel := by
  intro fuel
  induction fuel with
  | zero =>
    intro idx st _ _ hcard
    omega
  | succ fuel ih =>
    intro idx st hrel hsub hcard h
    rw [visit, visitStep] at h
    by_cases hperm : idx ∈ st.perm
    · rw [if_pos hperm] at h; cases h
    · rw [if_neg hperm] at h
      by_cases htemp : idx ∈ st.temp
      · rw [if_pos htemp] at h; cases h
      · rw [if_neg htemp] at h
        set st1 : VState := ⟨insert idx st.temp, st.perm, st.sorted⟩ with hst1
        have hsub1 : st1.temp ⊆ relevant := by
          intro t htm
          rcases Finset.mem_insert.1 htm with rfl | htm
          · exact hrel
          · exact hsub htm
        have hcard1 : (relevant \ st1.temp).card < fuel := by
          have hmem : idx ∈ relevant \ st.temp := Finset.mem_sdiff.2 ⟨hrel, htemp⟩
          have : relevant \ st1.temp = (relevant \ st.temp).erase idx := by
            simp only [hst1]
            exact Finset.sdiff_insert relevant st.temp idx
          rw [this, Finset.card_erase_of_mem hmem]
          have hpos : 0 < (relevant \ st.temp).card := Finset.card_pos.2 ⟨idx, hmem⟩
          omega
        have hlist : ∀ ds st', st'.temp = st1.temp →
            visitList (visit edges relevant fuel) relevant ds st' ≠
              Except.error LErr.outOfFuel := by
          intro ds
          induction ds with
          | nil => intro st' _ h'; cases h'
          | cons d ds ihd =>
            intro st' htm h'
            rw [visitList] at h'
            by_cases hd : d ∈ relevant
            · rw [if_pos hd] at h'
              cases hv : visit edges relevant fuel d st' with
              | error e' =>
                rw [hv] at h'
                cases h'
                exact ih d st' hd (htm ▸ hsub1) (htm ▸ hcard1) hv
              | ok st'' =>
                rw [hv] at h'
                have := visit_temp_eq edges relevant fuel d st' st'' hv
                exact ihd st'' (this.trans htm) h'
            · rw [if_neg hd] at h'
              exact ihd st' htm h'
        cases hv : visitList (visit edges relevant fuel) relevant
            (incomingDeps edges idx) st1 with
        | error e' =>
          rw [hv] at h
          cases h
          exact hlist _ st1 rfl hv
        | ok st2 => rw [hv] at h; cases h

/-! ## Cycle soundness: when the DFS reports a cycle, the graph really has
one inside the relevant set.  The temporary-mark set always forms the
current recursion path, represented here by an explicit chain `c`
(innermost node first) whose consecutive elements are joined by edges. -/

theorem chain_head_rtg {R : String → String → Prop} :
    ∀ (c : List String) (x : String), x ∈ c → List.Chain' R c →
      ∀ h, c.head? = some h → Relation.ReflTransGen R h x := by
  intro c
  induction c with
  | nil => intro x hx; cases hx
  | cons a rest ih =>
    intro x hx hchain h hh
    simp only [List.head?_cons, Option.some.injEq] at hh
    subst hh
    rcases List.mem_cons.1 hx with rfl | hx
    · exact Relation.ReflTransGen.refl
    · cases rest with
      | nil => cases hx
      | cons b rest' =>
        have hab : R a b := (List.chain'_cons.1 hchain).1
        have hchain' : List.Chain' R (b :: rest') := (List.chain'_cons.1 hchain).2
        exact Relation.ReflTransGen.head hab (ih x hx hchain' b rfl)

theorem visit_cycle_sound (edges : List (String × String)) (relevant : Finset String) :
    ∀ fuel idx st (c : List String),
      (∀ t ∈ st.temp, t ∈ c) → (∀ t ∈ c, t ∈ relevant) →
      List.Chain' (fun a b => (a, b) ∈ edges) c →
      (∀ h, c.head? = some h → (idx, h) ∈ edges) → idx ∈ relevant →
      visit edges relevant fuel idx st = Except.error LErr.cycleDetected →
      ∃ x ∈ relevant, Relation.TransGen (fun a b => (a, b) ∈ edges) x x := by
  intro fuel
  induction fuel with
  | zero =>
    intro idx st c _ _ _ _ _ h
    rw [visit] at h
    cases h
  | succ fuel ih =>
    intro idx st c hc1 hc2 hchain hlink hrel h
    rw [visit, visitStep] at h
    by_cases hperm : idx ∈ st.perm
    · rw [if_pos hperm] at h; cases h
    · rw [if_neg hperm] at h
      by_cases htemp : idx ∈ st.temp
      · -- the temporary mark was hit: close the recursion path into a cycle
        have hidxc : idx ∈ c := hc1 idx htemp
        obtain ⟨hd, rest, hcrest⟩ : ∃ hd rest, c = hd :: rest := by
          cases c with
          | nil => cases hidxc
          | cons hd rest => exact ⟨hd, rest, rfl⟩
        have hedge : (idx, hd) ∈ edges := hlink hd (by rw [hcrest]; rfl)
        have hrtg : Relation.ReflTransGen (fun a b => (a, b) ∈ edges) hd idx :=
          chain_head_rtg c idx hidxc hchain hd (by rw [hcrest]; rfl)
        exact ⟨idx, hrel, Relation.TransGen.head' hedge hrtg⟩
      · rw [if_neg htemp] at h
        set c' := idx :: c with hc'
        set st1 : VState := ⟨insert idx st.temp, st.perm, st.sorted⟩ with hst1
        have hc1' : ∀ t ∈ st1.temp, t ∈ c' := by
          intro t htm
          rcases Finset.mem_insert.1 htm with rfl | htm
          · exact List.mem_cons_self _ _
          · exact List.mem_cons_of_mem _ (hc1 t htm)
        have hc2' : ∀ t ∈ c', t ∈ relevant := by
          intro t htm
          rcases List.mem_cons.1 htm with rfl | htm
          · exact hrel
          · exact hc2 t htm
        have hchain' : List.Chain' (fun a b => (a, b) ∈ edges) c' := by
          rw [hc']
          rw [List.chain'_cons']
          exact ⟨fun y hy => hlink y hy, hchain⟩
        have hlist : ∀ ds st', (∀ t ∈ st'.temp, t ∈ c') →
            (∀ d ∈ ds, (d, idx) ∈ edges) →
            visitList (visit edges relevant fuel) relevant ds st' =
              Except.error LErr.cycleDetected →
            ∃ x ∈ relevant, Relation.TransGen (fun a b => (a, b) ∈ edges) x x := by
          intro ds
          induction ds with
          | nil => intro st' _ _ h'; cases h'
          | cons d ds ihd =>
            intro st' htm hds h'
            rw [visitList] at h'
            by_cases hd : d ∈ relevant
            · rw [if_pos hd] at h'
              cases hv : visit edges relevant fuel d st' with
              | error e' =>
                rw [hv] at h'
                cases h'
                exact ih d st' c' htm hc2' hchain'
                  (fun y hy => by
                    rw [hc'] at hy
                    simp only [List.head?_cons, Option.some.injEq] at hy
                    subst hy
                    exact hds d (List.mem_cons_self _ _))
                  hd hv
              | ok st'' =>
                rw [hv] at h'
                have heq := visit_temp_eq edges relevant fuel d st' st'' hv
                exact ihd st'' (fun t ht => htm t (heq ▸ ht))
                  (fun d' hd' => hds d' (List.mem_cons_of_mem _ hd')) h'
            · rw [if_neg hd] at h'
              exact ihd st' htm
                (fun d' hd' => hds d' (List.mem_cons_of_mem _ hd')) h'
        cases hv : visitList (visit edges relevant fuel) relevant
            (incomingDeps edges idx) st1 with
        | error e' =>
          rw [hv] at h
          cases h
          exact hlist _ st1 hc1' (fun d hd => mem_incomingDeps.1 hd) hv
        | ok st2 => rw [hv] at h; cases h

/-! ## Consequences of a successful sort -/

theorem transGen_rank (g : ModuleGraph) (R : Finset String) (st : VState)
    (hinv : SInv g.mod_dependency_graph R st)
    (hsub : ∀ y ∈ R, y ∈ st.perm) :
    ∀ a b, Relation.TransGen (relEdge g R) a b →
      st.sorted.indexOf a < st.sorted.indexOf b := by
  have hstep : ∀ a b, relEdge g R a b →
      st.sorted.indexOf a < st.sorted.indexOf b := by
    rintro a b ⟨hab, haR, hbR⟩
    exact (hinv.2.2.2.2.2 b (hsub b hbR) a hab haR).2
  intro a b h
  induction h with
  | single h => exact hstep _ _ h
  | tail _ h2 ih => exact lt_trans ih (hstep _ _ h2)

theorem perm_of_reaches (g : ModuleGraph) (target : String)
    (hwf : WFGraph g) (ht : target ∈ g.graphNodes) (st : VState)
    (hinv : SInv g.mod_dependency_graph (relevantSet g target) st)
    (htp : target ∈ st.perm) :
    ∀ y, Relation.ReflTransGen (edgeRel g) y target → y ∈ st.perm := by
  intro y hy
  induction hy using Relation.ReflTransGen.head_induction_on with
  | refl => exact htp
  | head hab hrtg ih =>
    exact (hinv.2.2.2.2.2 _ ih _ hab
      (reaches_relevant g target hwf ht _ (Relation.ReflTransGen.head hab hrtg))).1

/-- Bundle of facts available after the DFS from the target succeeds:
the state invariant, and that the permanent marks are exactly the
relevant set. -/
theorem visit_final (g : ModuleGraph) (target : String)
    (hwf : WFGraph g) (ht : target ∈ g.graphNodes) (st : VState)
    (hv : visit g.mod_dependency_graph (relevantSet g target)
      (g.graphNodes.length + 1) target ⟨∅, ∅, []⟩ = Except.ok st) :
    SInv g.mod_dependency_graph (relevantSet g target) st ∧
    (∀ y, y ∈ st.perm ↔ y ∈ relevantSet g target) ∧ target ∈ st.perm := by
  obtain ⟨hinv, _, _, htp, _⟩ :=
    visit_ok_spec g.mod_dependency_graph (relevantSet g target) _ target _ st
      (SInv_init _ _) (target_mem_relevantSet g target) hv
  refine ⟨hinv, fun y => ⟨hinv.2.2.1 y, fun hy => ?_⟩, htp⟩
  exact perm_of_reaches g target hwf ht st hinv htp y (relevant_reaches g target y hy)

theorem no_cycle_of_visit_ok (g : ModuleGraph) (target : String)
    (hwf : WFGraph g) (ht : target ∈ g.graphNodes) (st : VState)
    (hv : visit g.mod_dependency_graph (relevantSet g target)
      (g.graphNodes.length + 1) target ⟨∅, ∅, []⟩ = Except.ok st) :
    ¬ hasCycleIn g (relevantSet g target) := by
  rintro ⟨x, hxR, hxT⟩
  obtain ⟨hinv, hpermiff, _⟩ := visit_final g target hwf ht st hv
  have hrel := transGen_relEdge_of_relevant g target hwf ht hxT hxR
  have := transGen_rank g _ st hinv (fun y hy => (hpermiff y).2 hy) x x hrel
  omega

theorem relevant_card_lt_fuel (g : ModuleGraph) (target : String)
    (hwf : WFGraph g) (ht : target ∈ g.graphNodes) :
    ((relevantSet g target) \ (∅ : Finset String)).card < g.graphNodes.length + 1 := by
  rw [Finset.sdiff_empty]
  have h1 := Finset.card_le_card (relevantSet_subset_nodes g target hwf ht)
  have h2 := List.toFinset_card_le g.graphNodes
  omega

/-- Shared engine for claims C5 and C8: a cycle in the relevant set makes
execution_layers fail with the cycle error. -/
theorem execution_layers_cycle_error (g : ModuleGraph) (target : String)
    (hwf : WFGraph g) (ht : target ∈ g.graphNodes)
    (hcyc : hasCycleIn g (relevantSet g target)) :
    execution_layers g target = Except.error LErr.cycleDetected := by
  unfold execution_layers
  rw [if_pos ht]
  cases hv : visit g.mod_dependency_graph (relevantSet g target)
      (g.graphNodes.length + 1) target ⟨∅, ∅, []⟩ with
  | ok st => exact absurd hcyc (no_cycle_of_visit_ok g target hwf ht st hv)
  | error e =>
    rcases visit_error_cases _ _ _ _ _ _ hv with rfl | rfl
    · simp only [hv]
    · exact absurd hv (visit_no_fuel _ _ _ target _
        (target_mem_relevantSet g target) (Finset.empty_subset _)
        (relevant_card_lt_fuel g target hwf ht))

/-- When the relevant subgraph is acyclic, the DFS succeeds. -/
theorem visit_ok_of_acyclic (g : ModuleGraph) (target : String)
    (hwf : WFGraph g) (ht : target ∈ g.graphNodes)
    (hacyc : ¬ hasCycleIn g (relevantSet g target)) :
    ∃ st, visit g.mod_dependency_graph (relevantSet g target)
      (g.graphNodes.length + 1) target ⟨∅, ∅, []⟩ = Except.ok st := by
  cases hv : visit g.mod_dependency_graph (relevantSet g target)
      (g.graphNodes.length + 1) target ⟨∅, ∅, []⟩ with
  | ok st => exact ⟨st, rfl⟩
  | error e =>
    exfalso
    rcases visit_error_cases _ _ _ _ _ _ hv with rfl | rfl
    · obtain ⟨x, hxR, hxT⟩ := visit_cycle_sound g.mod_dependency_graph
        (relevantSet g target) _ target _ [] (by simp) (by simp) (by simp)
        (by simp) (target_mem_relevantSet g target) hv
      exact hacyc ⟨x, hxR, hxT⟩
    · exact visit_no_fuel _ _ _ target _
        (target_mem_relevantSet g target) (Finset.empty_subset _)
        (relevant_card_lt_fuel g target hwf ht) hv

/-! ## The layer-partitioning loop -/

theorem allDepsAssigned_iff (edges : List (String × String))
    (relevant assigned : Finset String) (x : String) :
    allDepsAssigned edges relevant assigned x = true ↔
    ∀ a, (a, x) ∈ edges → a ∈ relevant → a ∈ assigned := by
  unfold allDepsAssigned
  rw [List.all_eq_true]
  constructor
  · intro h a ha harel
    have hmem : a ∈ (incomingDeps edges x).filter (fun a => decide (a ∈ relevant)) :=
      List.mem_filter.2 ⟨mem_incomingDeps.2 ha, by simpa using harel⟩
    simpa using h a hmem
  · intro h a ha
    obtain ⟨h1, h2⟩ := List.mem_filter.1 ha
    simp only [decide_eq_true_eq] at h2 ⊢
    exact h a (mem_incomingDeps.1 h1) h2

theorem length_filter_add_not {α : Type} (p : α → Bool) (l : List α) :
    (l.filter p).length + (l.filter (fun x => ! p x)).length = l.length := by
  induction l with
  | nil => rfl
  | cons a t ih =>
    by_cases h : p a <;> simp [List.filter_cons, h, ← ih] <;> omega

theorem length_filter_not_lt {α : Type} (p : α → Bool) (l : List α)
    (h : l.filter p ≠ []) :
    (l.filter (fun x => ! p x)).length < l.length := by
  have h1 := length_filter_add_not p l
  have h2 : 0 < (l.filter p).length := List.length_pos.2 h
  omega

theorem buildLayers_ok (edges : List (String × String)) (relevant : Finset String)
    (pos : String → Nat) :
    ∀ fuel (remaining : List String) (assigned : Finset String),
      remaining.length ≤ fuel →
      (∀ x ∈ remaining, ∀ a, (a, x) ∈ edges → a ∈ relevant →
        a ∈ assigned ∨ (a ∈ remaining ∧ pos a < pos x)) →
      ∃ layers, buildLayers edges relevant fuel remaining assigned =
        Except.ok layers := by
  intro fuel
  induction fuel with
  | zero =>
    intro remaining assigned hlen _
    have hnil : remaining = [] := List.eq_nil_of_length_eq_zero (by omega)
    subst hnil
    exact ⟨[], by rw [buildLayers]; rfl⟩
  | succ fuel ih =>
    intro remaining assigned hlen hprog
    by_cases hemp : remaining.isEmpty
    · exact ⟨[], by rw [buildLayers, if_pos hemp]⟩
    · have hne : remaining ≠ [] := by
        simpa [List.isEmpty_iff] using hemp
      have hfin : remaining.toFinset.Nonempty := by
        cases remaining with
        | nil => exact absurd rfl hne
        | cons a t => exact ⟨a, by simp⟩
      obtain ⟨x, hxmem, hxmin⟩ := Finset.exists_min_image remaining.toFinset pos hfin
      rw [List.mem_toFinset] at hxmem
      have hx : allDepsAssigned edges relevant assigned x = true := by
        rw [allDepsAssigned_iff]
        intro a ha harel
        rcases hprog x hxmem a ha harel with h | ⟨hmem, hlt⟩
        · exact h
        · exact absurd (hxmin a (List.mem_toFinset.2 hmem)) (by omega)
      have hlayer : remaining.filter (allDepsAssigned edges relevant assigned) ≠ [] :=
        List.ne_nil_of_mem (List.mem_filter.2 ⟨hxmem, hx⟩)
      have hlen' :
          (remaining.filter (fun y => ! allDepsAssigned edges relevant assigned y)).length ≤
            fuel := by
        have := length_filter_not_lt (allDepsAssigned edges relevant assigned)
          remaining hlayer
        omega
      have hprog' : ∀ y ∈ remaining.filter
            (fun y => ! allDepsAssigned edges relevant assigned y),
          ∀ a, (a, y) ∈ edges → a ∈ relevant →
            a ∈ assigned ∪
              (remaining.filter (allDepsAssigned edges relevant assigned)).toFinset ∨
            (a ∈ remaining.filter
              (fun y => ! allDepsAssigned edges relevant assigned y) ∧
              pos a < pos y) := by
        intro y hy a ha harel
        have hymem := (List.mem_filter.1 hy).1
        rcases hprog y hymem a ha harel with h | ⟨hmem, hlt⟩
        · exact Or.inl (Finset.mem_union_left _ h)
        · by_cases haD : allDepsAssigned edges relevant assigned a
          · exact Or.inl (Finset.mem_union_right _
              (List.mem_toFinset.2 (List.mem_filter.2 ⟨hmem, haD⟩)))
          · exact Or.inr ⟨List.mem_filter.2 ⟨hmem, by simpa using haD⟩, hlt⟩
      obtain ⟨rest, hrest⟩ := ih _ _ hlen' hprog'
      refine ⟨remaining.filter (allDepsAssigned edges relevant assigned) :: rest, ?_⟩
      rw [buildLayers, if_neg (by simpa [List.isEmpty_iff] using hne)]
      have hlayerE :
          (remaining.filter (allDepsAssigned edges relevant assigned)).isEmpty = false := by
        simpa [List.isEmpty_iff] using hlayer
      simp only [hlayerE, Bool.false_eq_true, if_false, hrest]

theorem buildLayers_spec (edges : List (String × String)) (relevant : Finset String) :
    ∀ fuel (remaining : List String) (assigned : Finset String) layers,
      buildLayers edges relevant fuel remaining assigned = Except.ok layers →
      List.Perm layers.flatten remaining ∧
      (∀ k (hk : k < layers.length), ∀ x ∈ layers.get ⟨k, hk⟩,
        ∀ a, (a, x) ∈ edges → a ∈ relevant →
          a ∈ assigned ∨ a ∈ (layers.take k).flatten) := by
  intro fuel
  induction fuel with
  | zero =>
    intro remaining assigned layers h
    rw [buildLayers] at h
    by_cases hemp : remaining.isEmpty
    · rw [if_pos hemp] at h
      cases h
      refine ⟨by simp [List.isEmpty_iff.1 hemp], ?_⟩
      intro k hk
      simp at hk
    · rw [if_neg hemp] at h
      cases h
  | succ fuel ih =>
    intro remaining assigned layers h
    rw [buildLayers] at h
    by_cases hemp : remaining.isEmpty
    · rw [if_pos hemp] at h
      cases h
      refine ⟨by simp [List.isEmpty_iff.1 hemp], ?_⟩
      intro k hk
      simp at hk
    · rw [if_neg hemp] at h
      by_cases hlay :
          (remaining.filter (allDepsAssigned edges relevant assigned)).isEmpty
      · simp only [hlay, if_true] at h
        cases h
      · simp only [hlay, Bool.false_eq_true, if_false] at h
        cases hrec : buildLayers edges relevant fuel
            (remaining.filter (fun x => ! allDepsAssigned edges relevant assigned x))
            (assigned ∪
              (remaining.filter (allDepsAssigned edges relevant assigned)).toFinset) with
        | error e => rw [hrec] at h; cases h
        | ok rest =>
          rw [hrec] at h
          cases h
          obtain ⟨hperm, hspec⟩ := ih _ _ _ hrec
          constructor
          · -- flatten (layer :: rest) permutes remaining
            have h1 : List.Perm
                (remaining.filter (allDepsAssigned edges relevant assigned) ++
                  rest.flatten)
                (remaining.filter (allDepsAssigned edges relevant assigned) ++
                  remaining.filter (fun x => ! allDepsAssigned edges relevant assigned x)) :=
              List.Perm.append_left _ hperm
            have h2 := List.filter_append_perm
              (allDepsAssigned edges relevant assigned) remaining
            exact (h1.trans h2)
          · intro k hk x hx a ha harel
            cases k with
            | zero =>
              have hfil := List.mem_filter.1 hx
              exact Or.inl ((allDepsAssigned_iff edges relevant assigned x).1
                hfil.2 a ha harel)
            | succ k' =>
              have hk' : k' < rest.length := by
                simpa using hk
              rcases hspec k' hk' x hx a ha harel with h | h
              · rcases Finset.mem_union.1 h with h | h
                · exact Or.inl h
                · refine Or.inr ?_
                  simp only [List.take_succ_cons, List.flatten_cons, List.mem_append]
                  exact Or.inl (List.mem_toFinset.1 h)
              · refine Or.inr ?_
                simp only [List.take_succ_cons, List.flatten_cons, List.mem_append]
                exact Or.inr h

/-- Shared engine for claims C4 and C6: whenever the depth-first sort
succeeds, `execution_layers` succeeds, the target is excluded from the
layers, and the concatenation of the layers followed by the target is a
duplicate-free enumeration of the relevant set in which every relevant
dependency precedes its dependent. -/
theorem execution_layers_sound (g : ModuleGraph) (target : String)
    (hwf : WFGraph g) (ht : target ∈ g.graphNodes) (st : VState)
    (hv : visit g.mod_dependency_graph (relevantSet g target)
      (g.graphNodes.length + 1) target ⟨∅, ∅, []⟩ = Except.ok st) :
    ∃ layers,
      execution_layers g target = Except.ok (layers, target) ∧
      (∀ x, x ∈ layers.flatten ++ [target] ↔ x ∈ relevantSet g target) ∧
      (layers.flatten ++ [target]).Nodup ∧
      (∀ x ∈ layers.flatten ++ [target], ∀ a,
        (a, x) ∈ g.mod_dependency_graph → a ∈ relevantSet g target →
        (layers.flatten ++ [target]).indexOf a <
          (layers.flatten ++ [target]).indexOf x) := by
  obtain ⟨hinv, hpermiff, htp⟩ := visit_final g target hwf ht st hv
  obtain ⟨hnodup, hsortiff, hpermrel, htmprel, htmpperm, htopo⟩ := hinv
  have hinv' : SInv g.mod_dependency_graph (relevantSet g target) st :=
    ⟨hnodup, hsortiff, hpermrel, htmprel, htmpperm, htopo⟩
  -- the target is never a relevant dependency of a relevant node
  have hnotarget : ∀ x ∈ st.perm, (target, x) ∈ g.mod_dependency_graph → False := by
    intro x hxp hedge
    have hxR : x ∈ relevantSet g target := (hpermiff x).1 hxp
    have h1 : st.sorted.indexOf target < st.sorted.indexOf x :=
      (htopo x hxp target hedge (target_mem_relevantSet g target)).2
    by_cases hxt : x = target
    · subst hxt
      omega
    · have hrtg := relevant_reaches g target x hxR
      have htg : Relation.TransGen (edgeRel g) x target := by
        rcases Relation.reflTransGen_iff_eq_or_transGen.1 hrtg with heq | h
        · exact absurd heq.symm hxt
        · exact h
      have hres := transGen_relEdge_of_relevant g target hwf ht htg
        (target_mem_relevantSet g target)
      have h2 := transGen_rank g _ st hinv' (fun y hy => (hpermiff y).2 hy)
        x target hres
      omega
  -- progress hypothesis for the layering loop
  have hprog : ∀ x ∈ st.sorted.filter (fun x => decide (x ≠ target)),
      ∀ a, (a, x) ∈ g.mod_dependency_graph → a ∈ relevantSet g target →
        a ∈ (∅ : Finset String) ∨
        (a ∈ st.sorted.filter (fun x => decide (x ≠ target)) ∧
          st.sorted.indexOf a < st.sorted.indexOf x) := by
    intro x hx a ha haR
    right
    have hxs : x ∈ st.sorted := (List.mem_filter.1 hx).1
    have hxp : x ∈ st.perm := (hsortiff x).1 hxs
    obtain ⟨haperm, hlt⟩ := htopo x hxp a ha haR
    have haT : a ≠ target := by
      intro heq
      subst heq
      exact hnotarget x hxp ha
    exact ⟨List.mem_filter.2 ⟨(hsortiff a).2 haperm, by simpa using haT⟩, hlt⟩
  obtain ⟨layers, hlayers⟩ := buildLayers_ok g.mod_dependency_graph
    (relevantSet g target) (fun y => st.sorted.indexOf y)
    (st.sorted.filter (fun x => decide (x ≠ target))).length
    (st.sorted.filter (fun x => decide (x ≠ target))) ∅ (le_refl _) hprog
  obtain ⟨hperm, hspec⟩ := buildLayers_spec g.mod_dependency_graph
    (relevantSet g target) _ _ _ layers hlayers
  have hremnodup : (st.sorted.filter (fun x => decide (x ≠ target))).Nodup :=
    hnodup.filter _
  have hflatnodup : layers.flatten.Nodup := hperm.nodup_iff.2 hremnodup
  have htargetflat : target ∉ layers.flatten := by
    intro hmem
    have h1 := hperm.mem_iff.1 hmem
    have := (List.mem_filter.1 h1).2
    simp at this
  have hLnodup : (layers.flatten ++ [target]).Nodup := by
    rw [List.nodup_append]
    refine ⟨hflatnodup, List.nodup_singleton _, ?_⟩
    intro x hx hxt
    rw [List.mem_singleton] at hxt
    subst hxt
    exact htargetflat hx
  have hmemiff : ∀ x, x ∈ layers.flatten ++ [target] ↔ x ∈ relevantSet g target := by
    intro x
    rw [List.mem_append, List.mem_singleton]
    constructor
    · rintro (hx | hxt)
      · have hx' := hperm.mem_iff.1 hx
        exact (hpermiff x).1 ((hsortiff x).1 (List.mem_filter.1 hx').1)
      · rw [hxt]
        exact target_mem_relevantSet g target
    · intro hxR
      by_cases hxt : x = target
      · exact Or.inr hxt
      · refine Or.inl (hperm.mem_iff.2 ?_)
        exact List.mem_filter.2 ⟨(hsortiff x).2 ((hpermiff x).2 hxR), by simpa using hxt⟩
  have hLindex : ∀ x ∈ layers.flatten ++ [target], ∀ a,
      (a, x) ∈ g.mod_dependency_graph → a ∈ relevantSet g target →
      (layers.flatten ++ [target]).indexOf a <
        (layers.flatten ++ [target]).indexOf x := by
    intro x hxL a ha haR
    rcases List.mem_append.1 hxL with hxflat | hxt
    · obtain ⟨s, hs, hxs⟩ := List.mem_flatten.1 hxflat
      obtain ⟨⟨k, hk⟩, hgets⟩ := List.mem_iff_get.1 hs
      have hspek := hspec k hk x (by rw [hgets]; exact hxs) a ha haR
      rcases hspek with h | h
      · exact absurd h (Finset.not_mem_empty a)
      · have hsplit : layers.flatten =
            (layers.take k).flatten ++ (layers.drop k).flatten := by
          rw [← List.flatten_append, List.take_append_drop]
        have hxdrop : x ∈ (layers.drop k).flatten := by
          apply List.mem_flatten.2
          refine ⟨s, ?_, hxs⟩
          rw [List.drop_eq_getElem_cons hk]
          refine List.mem_cons.2 (Or.inl ?_)
          rw [← hgets]
          exact List.get_eq_getElem _ _
        have hLsplit : layers.flatten ++ [target] =
            (layers.take k).flatten ++ ((layers.drop k).flatten ++ [target]) := by
          rw [← List.append_assoc, ← hsplit]
        have hLn2 : ((layers.take k).flatten ++
            ((layers.drop k).flatten ++ [target])).Nodup := by
          rw [← hLsplit]
          exact hLnodup
        have hxA : x ∉ (layers.take k).flatten := by
          intro hxa
          exact (List.disjoint_of_nodup_append hLn2) hxa
            (List.mem_append.2 (Or.inl hxdrop))
        rw [hLsplit, List.indexOf_append_of_mem h, List.indexOf_append_of_not_mem hxA]
        have := List.indexOf_lt_length.2 h
        omega
    · have hxt' : target = x := (List.mem_singleton.1 hxt).symm
      subst hxt'
      have haT : a ≠ target := fun heq => hnotarget target htp (heq ▸ ha)
      have haflat : a ∈ layers.flatten := by
        have hmem : a ∈ layers.flatten ++ [target] := (hmemiff a).2 haR
        rcases List.mem_append.1 hmem with h | h
        · exact h
        · exact absurd (List.mem_singleton.1 h) haT
      rw [List.indexOf_append_of_mem haflat,
        List.indexOf_append_of_not_mem htargetflat]
      have := List.indexOf_lt_length.2 haflat
      simp only [List.indexOf_cons_self]
      omega
  refine ⟨layers, ?_, hmemiff, hLnodup, hLindex⟩
  unfold execution_layers
  rw [if_pos ht]
  simp only [hv, hlayers]

/-! ## Auxiliary facts shared by several claims -/

/-- A strictly edge-increasing ranking function rules out cycles. -/
theorem noCycle_of_rank (g : ModuleGraph) (f : String → Nat)
    (hf : ∀ e ∈ g.mod_dependency_graph, f e.1 < f e.2) (S : Finset String) :
    ¬ hasCycleIn g S := by
  rintro ⟨x, _, hx⟩
  have hmono : ∀ a b, Relation.TransGen (edgeRel g) a b → f a < f b := by
    intro a b h
    induction h with
    | single h => exact hf _ h
    | tail _ h2 ih => exact lt_trans ih (hf _ h2)
  exact absurd (hmono x x hx) (lt_irrefl _)

/-- run_module never reads its action parameter (this equality is
definitional, which is precisely the observation behind claim C2). -/
theorem run_module_action_irrelevant (g : ModuleGraph) (id : String)
    (a b : TerraformAction) : run_module g id a = run_module g id b := rfl

/-! ## Concrete fixtures used by the closed theorems and witnesses -/

def emptyGraph : ModuleGraph := ⟨[], [], [], []⟩

/-- The vpc ← db ← app chain of the spec scenario, with mocked outputs,
as built by ModuleGraph::new for that model. -/
def exampleGraph : ModuleGraph :=
  { mod_dependency_graph := [("vpc", "db"), ("db", "app")],
    graphNodes := ["vpc", "db", "app"],
    modules :=
      [("vpc", { source := "vpc", id := "vpc", dependencies := [], vars := [],
                 mocked_outputs := some [("id", Val.str "vpc-1")], inputs := [],
                 scope_ids := ["root"] }),
       ("db", { source := "db", id := "db", dependencies := [⟨"vpc", "vpc"⟩],
                vars := [], mocked_outputs := none,
                inputs := [("vpc_id", InputValue.Ref "vpc.id")],
                scope_ids := ["root"] }),
       ("app", { source := "app", id := "app", dependencies := [⟨"db", "db"⟩],
                 vars := [], mocked_outputs := none, inputs := [],
                 scope_ids := ["root"] })],
    scopes := [("root", ⟨"root", []⟩)] }

def rankExample : String → Nat :=
  fun s => if s = "vpc" then 0 else if s = "db" then 1 else 2

/-- Two mutually dependent modules. -/
def cycleGraph : ModuleGraph :=
  { mod_dependency_graph := [("a", "b"), ("b", "a")],
    graphNodes := ["a", "b"], modules := [], scopes := [] }

/-- A graph with a recorded self-edge. -/
def selfLoopGraph : ModuleGraph :=
  { mod_dependency_graph := [("x.db", "x.db")],
    graphNodes := ["x.db"], modules := [], scopes := [] }

/-- A module whose declared dependency name equals its own source. -/
def selfModule : ModuleNode :=
  { source := "db", id := "x.db", dependencies := [⟨"", "db"⟩], vars := [],
    mocked_outputs := none, inputs := [], scope_ids := ["x"] }

/-- Module of source "srv" sitting in the outermost scope "a". -/
def srvOuter : ModuleNode :=
  { source := "srv", id := "a.srv", dependencies := [], vars := [],
    mocked_outputs := none, inputs := [], scope_ids := ["a"] }

/-- Module of source "srv" sitting in the innermost scope "a.b.c". -/
def srvInner : ModuleNode :=
  { source := "srv", id := "a.b.c.srv", dependencies := [], vars := [],
    mocked_outputs := none, inputs := [], scope_ids := ["a", "a.b", "a.b.c"] }

/-- A module in scope "a.b.c" declaring a dependency on source "srv";
its scope_ids hash set happens to iterate innermost-first here. -/
def webInner : ModuleNode :=
  { source := "web", id := "a.b.c.web", dependencies := [⟨"", "srv"⟩],
    vars := [], mocked_outputs := none, inputs := [],
    scope_ids := ["a.b.c", "a.b", "a"] }

/-- Module with a ReferenceWithDefault input whose path names a declared
dependency but whose tail does not walk through the outputs. -/
def refDefaultModule : ModuleNode :=
  { source := "web", id := "web", dependencies := [⟨"db", "db"⟩], vars := [],
    mocked_outputs := none,
    inputs := [("x", InputValue.RefWithDefault "db.missing" (Val.str "d"))],
    scope_ids := [] }

/-- Module with a ReferenceWithDefault input whose head matches neither a
dependency nor a scope. -/
def refDefaultFreeModule : ModuleNode :=
  { source := "web", id := "web", dependencies := [], vars := [],
    mocked_outputs := none,
    inputs := [("x", InputValue.RefWithDefault "region.zone" (Val.str "d"))],
    scope_ids := [] }

/-- Module with a ReferenceWithDefault input whose head matches a scope
type but whose tail does not walk through that scope's variables. -/
def scopeDefaultModule : ModuleNode :=
  { source := "web", id := "web", dependencies := [], vars := [],
    mocked_outputs := none,
    inputs := [("x", InputValue.RefWithDefault "region.missing" (Val.str "d"))],
    scope_ids := ["s1"] }

/-- A graph whose only scope has type name "region". -/
def scopeGraph : ModuleGraph :=
  { mod_dependency_graph := [], graphNodes := [], modules := [],
    scopes := [("s1", ⟨"region", [("zone", Val.str "z")]⟩)] }

/-- Module declaring one dependency "db", for the path-walk examples. -/
def depOnlyModule : ModuleNode :=
  { source := "web", id := "web", dependencies := [⟨"db", "db"⟩], vars := [],
    mocked_outputs := none, inputs := [], scope_ids := [] }

def wrappedOutputs : List (String × List (String × Val)) :=
  [("db", [("endpoint",
    Val.seq [Val.map [("value", Val.map [("host", Val.str "x")])]])])]

/-- A module declared at the top level: empty scope_ids. -/
def topLevelModule : ModuleNode :=
  { source := "web", id := "toplevel", dependencies := [⟨"", "db"⟩],
    vars := [], mocked_outputs := none, inputs := [], scope_ids := [] }

/-- A matching module that would be found if any scope were scanned. -/
def dbInScope : ModuleNode :=
  { source := "db", id := "a.db", dependencies := [], vars := [],
    mocked_outputs := none, inputs := [], scope_ids := ["a"] }

/-! ## The claims -/

/-- Claim C1 (code bug).  The claim says dependency resolution scans the
declaring module's enclosing scope ids innermost-first, so that with
nested scopes A ⊇ B ⊇ C each holding a module of the same source, a
declarer in C always resolves to the module in C.  The code instead
reverses the arbitrary iteration order of a HashSet (graph.rs lines
205-206), so the scan order is arbitrary: with the set iterating
innermost-first (a legal HashSet order), the reversed scan starts at the
outermost scope "a" and resolves to the module in A; with the opposite
iteration order the very same scope-id set resolves to the module in C.
This also contradicts the source's own comment "Search in current
scope_ids from most specific to least". -/
theorem C1_scope_resolution_order_dependent :
    resolve_dependency_id webInner "srv" [srvOuter, srvInner, webInner] =
      Except.ok "a.srv" ∧
    resolve_dependency_id { webInner with scope_ids := ["a", "a.b", "a.b.c"] }
      "srv" [srvOuter, srvInner, webInner] = Except.ok "a.b.c.srv" ∧
    "a.srv" ≠ "a.b.c.srv" :=
  ⟨rfl, rfl, by decide⟩

/-- Claim C2 (code bug).  The claim says run(target, action) ends by
invoking the capability operation corresponding to the requested action,
i.e. the operation invoked on the target differs with the action.  The
engine (runtime.rs lines 31-67) never consults the action parameter and
unconditionally invokes apply on the target: the run for Plan is
identical to the run for Apply and for Destroy, and its trace ends with
an apply event on the target (the only apply event of the whole run). -/
theorem C2_action_parameter_ignored :
    run_module exampleGraph "app" TerraformAction.Plan =
      run_module exampleGraph "app" TerraformAction.Apply ∧
    run_module exampleGraph "app" TerraformAction.Plan =
      run_module exampleGraph "app" TerraformAction.Destroy ∧
    run_module exampleGraph "app" TerraformAction.Plan =
      Except.ok [Event.init "vpc", Event.output "vpc", Event.init "db",
        Event.output "db", Event.init "app", Event.output "app",
        Event.apply "app"] :=
  ⟨rfl, rfl, rfl⟩

/-- Claim C3, counterexample.  The claim says a ReferenceWithDefault
input never raises, including when the path's head names a declared
dependency and the remaining segments fail to walk.  In that very case
resolve_ref returns a hard error (runtime.rs line 115) which the `?` in
inject_inputs propagates past the default: injecting
RefWithDefault "db.missing" with default "d", where "db" is a declared
dependency whose outputs are empty, errors instead of yielding "d". -/
theorem C3_refwithdefault_raises_counterexample :
    inject_inputs refDefaultModule [("db", [])] emptyGraph =
      Except.error (LErr.cannotResolve "db.missing") := rfl

/-- Claim C3, amended.  For a ReferenceWithDefault input the default is
returned, silently, exactly when resolve_ref yields no value without
raising.  Conjuncts, in order: (1) when the path's head names a declared
dependency and the remaining segments fail to walk through its outputs,
resolve_ref is the hard cannot-resolve error; (2) a dependency head never
yields the silent no-value result at all, whatever the outputs map;
(3) when the head names no dependency but matches an enclosing scope
whose variable walk fails, resolve_ref yields no value without raising;
(4) likewise when the head matches neither a dependency nor a scope;
(5) injection of a RefWithDefault input stores the default and continues
exactly in the no-value case; (6) it stores the resolved value when the
path resolves; (7) it propagates the error, never the default, when
resolve_ref raises. -/
theorem C3_amended_refwithdefault_characterization :
    (∀ (path : String) (m : ModuleNode)
      (outs : List (String × List (String × Val))) (graph : ModuleGraph)
      (dep : Dependency) (dep_outputs : List (String × Val))
      (segments : List PathSegment),
      m.dependencies.find?
        (fun d => decide (d.name = (splitFirstDot path).1)) = some dep →
      assocGet outs dep.id = some dep_outputs →
      parse_path (splitFirstDot path).2 = some segments →
      get_value_from_path (Val.map dep_outputs) segments = none →
      resolve_ref path m outs graph =
        Except.error (LErr.cannotResolve path)) ∧
    (∀ (path : String) (m : ModuleNode)
      (outs : List (String × List (String × Val))) (graph : ModuleGraph)
      (dep : Dependency),
      m.dependencies.find?
        (fun d => decide (d.name = (splitFirstDot path).1)) = some dep →
      resolve_ref path m outs graph ≠ Except.ok none) ∧
    (∀ (path : String) (m : ModuleNode)
      (outs : List (String × List (String × Val))) (graph : ModuleGraph)
      (scope : Scope) (segments : List PathSegment),
      m.dependencies.find?
        (fun d => decide (d.name = (splitFirstDot path).1)) = none →
      findScopeByType m (splitFirstDot path).1 graph = some scope →
      parse_path (splitFirstDot path).2 = some segments →
      get_value_from_path (Val.map scope.vars) segments = none →
      resolve_ref path m outs graph = Except.ok none) ∧
    (∀ (path : String) (m : ModuleNode)
      (outs : List (String × List (String × Val))) (graph : ModuleGraph),
      m.dependencies.find?
        (fun d => decide (d.name = (splitFirstDot path).1)) = none →
      findScopeByType m (splitFirstDot path).1 graph = none →
      resolve_ref path m outs graph = Except.ok none) ∧
    (∀ (m : ModuleNode) (key path : String) (dflt : Val)
      (rest : List (String × InputValue))
      (outs : List (String × List (String × Val))) (graph : ModuleGraph),
      resolve_ref path m outs graph = Except.ok none →
      injectGo outs graph m
          ((key, InputValue.RefWithDefault path dflt) :: rest) =
        injectGo outs graph
          { m with vars := assocInsert m.vars key dflt } rest) ∧
    (∀ (m : ModuleNode) (key path : String) (dflt v : Val)
      (rest : List (String × InputValue))
      (outs : List (String × List (String × Val))) (graph : ModuleGraph),
      resolve_ref path m outs graph = Except.ok (some v) →
      injectGo outs graph m
          ((key, InputValue.RefWithDefault path dflt) :: rest) =
        injectGo outs graph
          { m with vars := assocInsert m.vars key v } rest) ∧
    (∀ (m : ModuleNode) (key path : String) (dflt : Val)
      (rest : List (String × InputValue))
      (outs : List (String × List (String × Val))) (graph : ModuleGraph)
      (e : LErr),
      resolve_ref path m outs graph = Except.error e →
      injectGo outs graph m
          ((key, InputValue.RefWithDefault path dflt) :: rest) =
        Except.error e) := by
  refine ⟨?_, ?_, ?_, ?_, ?_, ?_, ?_⟩
  · intro path m outs graph dep dep_outputs segments hdep houts hparse hwalk
    unfold resolve_ref
    simp only [hdep, houts, hparse, hwalk]
  · intro path m outs graph dep hdep hcontra
    unfold resolve_ref at hcontra
    simp only [hdep] at hcontra
    cases houts : assocGet outs dep.id with
    | none => simp [houts] at hcontra
    | some dep_outputs =>
      cases hparse : parse_path (splitFirstDot path).2 with
      | none => simp [houts, hparse] at hcontra
      | some segments =>
        cases hwalk : get_value_from_path (Val.map dep_outputs) segments with
        | none => simp [houts, hparse, hwalk] at hcontra
        | some v => simp [houts, hparse, hwalk] at hcontra
  · intro path m outs graph scope segments hnodep hscope hparse hwalk
    unfold resolve_ref
    simp only [hnodep]
    unfold find_scope_variable
    simp only [hscope, hparse, hwalk]
  · intro path m outs graph hnodep hnoscope
    unfold resolve_ref
    simp only [hnodep]
    unfold find_scope_variable
    rw [hnoscope]
  · intro m key path dflt rest outs graph hres
    rw [injectGo]
    simp only [hres]
  · intro m key path dflt v rest outs graph hres
    rw [injectGo]
    simp only [hres]
  · intro m key path dflt rest outs graph e hres
    rw [injectGo]
    simp only [hres]

theorem C3_amended_witness :
    resolve_ref "region.missing" scopeDefaultModule [] scopeGraph =
      Except.ok none ∧
    inject_inputs scopeDefaultModule [] scopeGraph =
      Except.ok { scopeDefaultModule with vars := [("x", Val.str "d")] } ∧
    resolve_ref "region.zone" refDefaultFreeModule [] emptyGraph =
      Except.ok none ∧
    resolve_ref "db.missing" refDefaultModule [("db", [])] emptyGraph =
      Except.error (LErr.cannotResolve "db.missing") := by
  have hscope := C3_amended_refwithdefault_characterization.2.2.1
    "region.missing" scopeDefaultModule [] scopeGraph
    ⟨"region", [("zone", Val.str "z")]⟩ [PathSegment.key "missing"]
    rfl rfl rfl rfl
  have hfree := C3_amended_refwithdefault_characterization.2.2.2.1
    "region.zone" refDefaultFreeModule [] emptyGraph rfl rfl
  have hdep := C3_amended_refwithdefault_characterization.1
    "db.missing" refDefaultModule [("db", [])] emptyGraph
    ⟨"db", "db"⟩ [] [PathSegment.key "missing"] rfl rfl rfl rfl
  have hinj := C3_amended_refwithdefault_characterization.2.2.2.2.1
    scopeDefaultModule "x" "region.missing" (Val.str "d") [] [] scopeGraph hscope
  refine ⟨hscope, ?_, hfree, hdep⟩
  calc inject_inputs scopeDefaultModule [] scopeGraph
      = injectGo [] scopeGraph scopeDefaultModule
          [("x", InputValue.RefWithDefault "region.missing" (Val.str "d"))] := rfl
    _ = injectGo [] scopeGraph
          { scopeDefaultModule with
            vars := assocInsert scopeDefaultModule.vars "x" (Val.str "d") } [] := hinj
    _ = Except.ok { scopeDefaultModule with vars := [("x", Val.str "d")] } := rfl

/-- Claim C4.  For any well-formed graph whose relevant subgraph for the
target is acyclic, execution_layers succeeds, the target sits in no
layer, and the concatenation of the layers with the target appended last
is a duplicate-free enumeration of the relevant set in which every
module's dependencies that lie in the relevant set occupy strictly
earlier positions. -/
theorem C4_execution_layers_topological (g : ModuleGraph) (target : String)
    (hwf : WFGraph g) (ht : target ∈ g.graphNodes)
    (hacyc : ¬ hasCycleIn g (relevantSet g target)) :
    ∃ layers,
      execution_layers g target = Except.ok (layers, target) ∧
      (∀ layer ∈ layers, target ∉ layer) ∧
      (∀ x, x ∈ layers.flatten ++ [target] ↔ x ∈ relevantSet g target) ∧
      (layers.flatten ++ [target]).Nodup ∧
      (∀ x ∈ layers.flatten ++ [target], ∀ a,
        (a, x) ∈ g.mod_dependency_graph → a ∈ relevantSet g target →
        (layers.flatten ++ [target]).indexOf a <
          (layers.flatten ++ [target]).indexOf x) := by
  obtain ⟨st, hv⟩ := visit_ok_of_acyclic g target hwf ht hacyc
  obtain ⟨layers, hok, hmem, hnodup, hidx⟩ :=
    execution_layers_sound g target hwf ht st hv
  refine ⟨layers, hok, ?_, hmem, hnodup, hidx⟩
  intro layer hl htl
  have hflat : target ∈ layers.flatten := List.mem_flatten.2 ⟨layer, hl, htl⟩
  exact List.disjoint_of_nodup_append hnodup hflat (List.mem_singleton.2 rfl)

theorem C4_witness :
    ∃ layers,
      execution_layers exampleGraph "app" = Except.ok (layers, "app") ∧
      (∀ layer ∈ layers, "app" ∉ layer) ∧
      (∀ x, x ∈ layers.flatten ++ ["app"] ↔ x ∈ relevantSet exampleGraph "app") ∧
      (layers.flatten ++ ["app"]).Nodup ∧
      (∀ x ∈ layers.flatten ++ ["app"], ∀ a,
        (a, x) ∈ exampleGraph.mod_dependency_graph →
        a ∈ relevantSet exampleGraph "app" →
        (layers.flatten ++ ["app"]).indexOf a <
          (layers.flatten ++ ["app"]).indexOf x) :=
  C4_execution_layers_topological exampleGraph "app" (by decide) (by decide)
    (noCycle_of_rank exampleGraph rankExample (by decide) _)

/-- Claim C5.  For any well-formed graph and existing target whose
relevant subgraph (the backward closure of the target) contains a
dependency cycle, execution_layers fails with the cycle-detected error —
for every edge-list presentation of the graph, hence regardless of
traversal order. -/
theorem C5_cycle_always_detected (g : ModuleGraph) (target : String)
    (hwf : WFGraph g) (ht : target ∈ g.graphNodes)
    (hcyc : hasCycleIn g (relevantSet g target)) :
    execution_layers g target = Except.error LErr.cycleDetected :=
  execution_layers_cycle_error g target hwf ht hcyc

theorem C5_witness :
    execution_layers cycleGraph "b" = Except.error LErr.cycleDetected :=
  C5_cycle_always_detected cycleGraph "b" (by decide) (by decide)
    ⟨"a", by decide,
      Relation.TransGen.head (show edgeRel cycleGraph "a" "b" by decide)
        (Relation.TransGen.single (show edgeRel cycleGraph "b" "a" by decide))⟩

/-- Claim C6.  The LayeringError branch is unreachable once the
depth-first sort has succeeded: whenever the DFS returns ok,
execution_layers returns layers (never the empty-layer error). -/
theorem C6_layering_error_unreachable (g : ModuleGraph) (target : String)
    (hwf : WFGraph g) (ht : target ∈ g.graphNodes)
    (hsort : (visit g.mod_dependency_graph (relevantSet g target)
      (g.graphNodes.length + 1) target ⟨∅, ∅, []⟩).isOk = true) :
    ∃ layers, execution_layers g target = Except.ok (layers, target) := by
  cases hv : visit g.mod_dependency_graph (relevantSet g target)
      (g.graphNodes.length + 1) target ⟨∅, ∅, []⟩ with
  | ok st =>
    obtain ⟨layers, hok, _, _, _⟩ := execution_layers_sound g target hwf ht st hv
    exact ⟨layers, hok⟩
  | error e =>
    rw [hv] at hsort
    simp [Except.isOk, Except.toBool] at hsort

theorem C6_witness :
    ∃ layers, execution_layers exampleGraph "app" =
      Except.ok (layers, "app") :=
  C6_layering_error_unreachable exampleGraph "app" (by decide) (by decide) rfl

/-- Claim C7, counterexample.  The claim says a value is unwrapped when
and only when it is a mapping containing exactly the single wrapper key
"value".  The code (runtime.rs lines 196-204) unwraps whenever the
mapping contains the key "value", regardless of other keys: walking key
"a" into a two-key mapping with keys "value" and "other" still unwraps
to the inner value instead of returning the two-key mapping the claim
requires. -/
theorem C7_unwrap_single_key_counterexample :
    get_value_from_path
      (Val.map [("a", Val.map [("value", Val.str "x"), ("other", Val.str "y")])])
      [PathSegment.key "a"] = some (Val.str "x") ∧
    Val.str "x" ≠ Val.map [("value", Val.str "x"), ("other", Val.str "y")] :=
  ⟨rfl, fun h => Val.noConfusion h⟩

/-- Claim C7, amended.  After applying each segment the current value is
unwrapped when and only when it is a mapping containing the key "value"
(other keys do not prevent unwrapping), the unwrap repeating until no
such key exists; and the spec's concrete example still holds: resolving
"db.endpoint[0].host" against dependency outputs
endpoint = [ (value = (host = "x")) ] yields "x". -/
theorem C7_amended_unwrap_when_value_key :
    (∀ (entries : List (String × Val)) (w : Val),
      assocGet entries "value" = some w →
      unwrapValue (Val.map entries) = unwrapValue w) ∧
    (∀ entries : List (String × Val), assocGet entries "value" = none →
      unwrapValue (Val.map entries) = Val.map entries) ∧
    (∀ (cur : Val) (seg : PathSegment) (rest : List PathSegment),
      get_value_from_path cur (seg :: rest) =
        match applySeg cur seg with
        | none => none
        | some v => get_value_from_path (unwrapValue v) rest) ∧
    resolve_ref "db.endpoint[0].host" depOnlyModule wrappedOutputs emptyGraph =
      Except.ok (some (Val.str "x")) :=
  ⟨fun _ _ h => unwrapValue_map_some h,
   fun _ h => unwrapValue_map_none h,
   fun _ _ _ => rfl,
   rfl⟩

theorem C7_amended_witness :
    unwrapValue (Val.map [("value", Val.str "z"), ("other", Val.null)]) =
      Val.str "z" :=
  (C7_amended_unwrap_when_value_key.1
    [("value", Val.str "z"), ("other", Val.null)] (Val.str "z") rfl).trans rfl

/-- Claim C8.  A module whose declared dependency name equals its own
source, lying in at least one scope, with no other module of that source
sharing any of its scopes, resolves the dependency to itself; graph
construction then records the self-edge, and execution_layers on any
well-formed graph containing that self-edge fails with the cycle error
for every target whose relevant set contains the module. -/
theorem C8_self_dependency_gives_cycle (modules : List ModuleNode)
    (m : ModuleNode) (dep0 : Dependency)
    (hm : m ∈ modules) (hne : m.scope_ids ≠ [])
    (hdep0 : dep0 ∈ m.dependencies) (hname : dep0.name = m.source)
    (hself : ∀ m' ∈ modules, m'.source = m.source →
      (∃ sid ∈ m.scope_ids, sid ∈ m'.scope_ids) → m'.id = m.id) :
    resolve_dependency_id m m.source modules = Except.ok m.id ∧
    (∀ es, edgesForModule m modules m.dependencies = Except.ok es →
      (m.id, m.id) ∈ es) ∧
    (∀ (g : ModuleGraph) (target : String), WFGraph g →
      target ∈ g.graphNodes → (m.id, m.id) ∈ g.mod_dependency_graph →
      m.id ∈ relevantSet g target →
      execution_layers g target = Except.error LErr.cycleDetected) := by
  have hres : resolve_dependency_id m m.source modules = Except.ok m.id := by
    unfold resolve_dependency_id
    obtain ⟨s, rest, hrev⟩ : ∃ s rest, m.scope_ids.reverse = s :: rest := by
      cases h : m.scope_ids.reverse with
      | nil =>
        exfalso
        exact hne (by simpa using congrArg List.reverse h)
      | cons s rest => exact ⟨s, rest, rfl⟩
    rw [hrev, scanScopeIds]
    have hs_mem : s ∈ m.scope_ids := by
      have : s ∈ m.scope_ids.reverse := by
        rw [hrev]
        exact List.mem_cons_self _ _
      simpa using this
    cases hfind : findModuleInScope m.source s modules with
    | none =>
      exfalso
      unfold findModuleInScope at hfind
      have hsome : (modules.find?
          (fun mm => decide (mm.source = m.source ∧ s ∈ mm.scope_ids))).isSome := by
        rw [List.find?_isSome]
        exact ⟨m, hm, by simp [hs_mem]⟩
      rw [hfind] at hsome
      simp at hsome
    | some mm =>
      have h1 := List.find?_some hfind
      simp only [decide_eq_true_eq] at h1
      have h2 := List.mem_of_find?_eq_some hfind
      have hid : mm.id = m.id := hself mm h2 h1.1 ⟨s, hs_mem, h1.2⟩
      simp [hid]
  refine ⟨hres, ?_, ?_⟩
  · have hedge : ∀ deps, dep0 ∈ deps → ∀ es,
        edgesForModule m modules deps = Except.ok es → (m.id, m.id) ∈ es := by
      intro deps
      induction deps with
      | nil => intro h; cases h
      | cons d ds ih =>
        intro hmem es hok
        rw [edgesForModule] at hok
        cases hr : resolve_dependency_id m d.name modules with
        | error e => rw [hr] at hok; cases hok
        | ok depId =>
          rw [hr] at hok
          cases hrec : edgesForModule m modules ds with
          | error e => rw [hrec] at hok; cases hok
          | ok es' =>
            rw [hrec] at hok
            cases hok
            rcases List.mem_cons.1 hmem with rfl | hmem'
            · rw [hname, hres] at hr
              cases hr
              exact List.mem_cons_self _ _
            · exact List.mem_cons_of_mem _ (ih hmem' es' hrec)
    exact hedge m.dependencies hdep0
  · intro g target hwf ht hedge hmem
    exact execution_layers_cycle_error g target hwf ht
      ⟨m.id, hmem, Relation.TransGen.single hedge⟩

theorem C8_witness :
    resolve_dependency_id selfModule "db" [selfModule] = Except.ok "x.db" ∧
    execution_layers selfLoopGraph "x.db" = Except.error LErr.cycleDetected := by
  have h := C8_self_dependency_gives_cycle [selfModule] selfModule ⟨"", "db"⟩
    (List.mem_singleton.2 rfl) (by decide) (List.mem_singleton.2 rfl) rfl
    (by
      intro m' hm' _ _
      rw [List.mem_singleton] at hm'
      rw [hm'])
  exact ⟨h.1, h.2.2 selfLoopGraph "x.db" (by decide) (by decide)
    (by decide) (by decide)⟩

/-- Claim C9.  A module with an empty scope_ids set (as a top-level
module has, since the scope-id assignment pass only descends into
scopes) can never resolve any dependency name: the innermost-to-outermost
scan has nothing to scan and resolution fails with DependencyNotFound,
no matter which modules exist in the model. -/
theorem C9_empty_scope_ids_never_resolve (module : ModuleNode)
    (dep_name : String) (modules : List ModuleNode)
    (h : module.scope_ids = []) :
    resolve_dependency_id module dep_name modules =
      Except.error (LErr.dependencyNotFound dep_name module.id) := by
  unfold resolve_dependency_id
  rw [h]
  rfl

theorem C9_witness :
    resolve_dependency_id topLevelModule "db" [dbInScope, topLevelModule] =
      Except.error (LErr.dependencyNotFound "db" "toplevel") :=
  C9_empty_scope_ids_never_resolve topLevelModule "db"
    [dbInScope, topLevelModule] rfl

/-- Claim C10.  A reference path that is exactly a declared dependency's
name (no dot) resolves to that dependency's entire output mapping
as-is: the walk applies zero segments, and since unwrapping only happens
after a segment is applied, no top-level "value" key is unwrapped. -/
theorem C10_bare_dependency_name_returns_outputs (path : String)
    (module : ModuleNode) (outs : List (String × List (String × Val)))
    (graph : ModuleGraph) (dep : Dependency)
    (dep_outputs : List (String × Val))
    (hnodot : splitAtChar '.' path.toList = none)
    (hdep : module.dependencies.find?
      (fun d => decide (d.name = path)) = some dep)
    (houts : assocGet outs dep.id = some dep_outputs) :
    resolve_ref path module outs graph =
      Except.ok (some (Val.map dep_outputs)) := by
  have hsplit : splitFirstDot path = (path, "") := by
    unfold splitFirstDot
    rw [hnodot]
  unfold resolve_ref
  rw [hsplit]
  simp only [hdep, houts]
  have hpp : parse_path "" = some [] := rfl
  rw [hpp]
  rfl

theorem C10_witness :
    resolve_ref "db" depOnlyModule
      [("db", [("value", Val.str "w"), ("k", Val.null)])] emptyGraph =
      Except.ok (some (Val.map [("value", Val.str "w"), ("k", Val.null)])) :=
  C10_bare_dependency_name_returns_outputs "db" depOnlyModule
    [("db", [("value", Val.str "w"), ("k", Val.null)])] emptyGraph
    ⟨"db", "db"⟩ [("value", Val.str "w"), ("k", Val.null)] rfl rfl rfl

end LightStacks
